import Mathlib

/-!
Verification of the scale-up reconciliation engine of `testflows/GitHub-Runners`
(`src/testflows/github/runners/scale_up.py`), as a shallow embedding in Lean.

Python strings are modelled as `List Char`; Python `set[str]` values (label sets)
are modelled as `List (List Char)` carrying the iteration order explicitly;
`dict` lookups are modelled as association-list lookups; `random.shuffle` is
modelled as an arbitrary permutation-producing function supplied as a parameter;
`uuid`-based fresh names are modelled as an injected name stream.
-/

set_option autoImplicit false

/-! ## Definitions -/

/-- The characters of a string literal; Python `str` values are `List Char` here. -/
def chars (s : String) : List Char := s.data

/-- The fleet namespace marker, source constant
`server_name_prefix = "github-runner-"` (scale_up.py line 52). -/
def snPref : List Char := chars "github-runner-"

/-- Source constant `standby_server_name_prefix = "github-runner-standby-"` (line 54);
also the runner-side standby marker (line 55). -/
def standbyPref : List Char := snPref ++ chars "standby-"

/-- Source constant `recycle_server_name_prefix = "github-runner-recycle-"` (line 56). -/
def recyclePref : List Char := snPref ++ chars "recycle-"

/-- The `hcloud` constant `Server.STATUS_OFF`. -/
def statusOff : List Char := chars "off"

/-- job status literal -/
def sCompleted : List Char := chars "completed"

/-- job status literal -/
def sInProgress : List Char := chars "in_progress"

/-- job status literal -/
def sQueued : List Char := chars "queued"

/-- runner business-status literal -/
def stInitializing : List Char := chars "initializing"

/-- runner business-status literal -/
def stReady : List Char := chars "ready"

/-- cloud lifecycle literal, `hcloud` `Server.STATUS_STARTING` -/
def stStarting : List Char := chars "starting"

/-- Fuel-driven decimal rendering, so that the kernel can evaluate it. -/
def natCharsAux : Nat → Nat → List Char
  | 0, _ => []
  | fuel + 1, n =>
    if n < 10 then [Nat.digitChar n]
    else natCharsAux fuel (n / 10) ++ [Nat.digitChar (n % 10)]

/-- Decimal digit string of `n`, the model of Python `str(n)` for `n : Nat`. -/
def natChars (n : Nat) : List Char := natCharsAux (n + 1) n

/-- A decimal digit character. -/
def isDig (c : Char) : Bool := decide ('0' ≤ c) && decide (c ≤ '9')

/-- The deterministic job-scoped server name,
source: the f-string at scale_up.py lines 597-599. -/
def jobServerName (rid jid : Nat) : List Char :=
  snPref ++ natChars rid ++ '-' :: natChars jid

/-- A standby-pool server name (source line 675); `u` stands for the generated uid. -/
def standbyName (u : List Char) : List Char := standbyPref ++ u

/-- The per-run name scope used by `max_servers_in_workflow_run_reached`
(source line 330): fleet marker directly followed by the decimal run id,
with no trailing separator. -/
def runPref (rid : Nat) : List Char := snPref ++ natChars rid

/-- The exact name scope of a workflow run: the run scope closed by a hyphen,
so that only names of the form `jobServerName rid _` fall under it. -/
def exactScope (rid : Nat) : List Char := snPref ++ natChars rid ++ ['-']

/-- The `hcloud` `ServerType`: only the name is consulted by the engine. -/
structure ServerType where
  name : List Char
deriving DecidableEq

/-- The `hcloud` `Location`: only the name is consulted by the engine. -/
structure Location where
  name : List Char
deriving DecidableEq

/-- The `RunnerServer` dataclass (scale_up.py lines 60-68). `cloudSshKey` models
the lookup `server.server.labels.get("github-runner-ssh-key")` on the underlying
cloud handle; it is `none` on the placeholder records the cycle appends, whose
`server` field is `None` in the source. -/
structure RunnerServer where
  name : List Char
  labels : List (List Char)
  server_type : ServerType
  server_location : Option Location
  cloudSshKey : Option (List Char) := none
  server_status : List Char := stStarting
  status : List Char := stInitializing
deriving DecidableEq

/-- Model of `get_server_type` (scale_up.py lines 121-134). The `for` loop over the label
set has no `break`: every label carrying the `type-` marker overwrites
`server_type`, so the label reached last in iteration order decides. The
iteration order of the Python `set` is the order of this list. -/
def get_server_type (labels : List (List Char)) (default : ServerType) : ServerType :=
  match labels.foldl
      (fun acc label =>
        if (chars "type-").isPrefixOf label then
          some (ServerType.mk ((label.drop (chars "type-").length).map Char.toLower))
        else acc)
      none with
  | some st => st
  | none => default

/-- Model of `get_server_location` (scale_up.py lines 137-154); same overwrite pattern
with the `in-` marker; `none` stands for the Python `None` default. -/
def get_server_location (labels : List (List Char)) (default : Option Location) :
    Option Location :=
  match labels.foldl
      (fun acc label =>
        if (chars "in-").isPrefixOf label then
          some (Location.mk ((label.drop (chars "in-").length).map Char.toLower))
        else acc)
      none with
  | some l => some l
  | none => default

/-- Model of `count_available` (scale_up.py lines 294-307): skip powered-off servers,
require the requested labels to be a subset of the server labels, and count
only `initializing`/`ready` business status. -/
def count_available (servers : List RunnerServer) (labels : List (List Char)) : Nat :=
  servers.foldl
    (fun count rs =>
      if rs.server_status = statusOff then count
      else if labels.all (fun l => rs.labels.contains l) then
        if rs.status = stInitializing ∨ rs.status = stReady then count + 1 else count
      else count)
    0

/-- Model of `count_present` (scale_up.py lines 310-322): as `count_available` but with
no business-status requirement. -/
def count_present (servers : List RunnerServer) (labels : List (List Char)) : Nat :=
  servers.foldl
    (fun count rs =>
      if rs.server_status = statusOff then count
      else if labels.all (fun l => rs.labels.contains l) then count + 1
      else count)
    0

/-- Python keyword-argument binding: a call binds iff every keyword names a
declared parameter and every declared parameter is bound. -/
def pyKwargsBindOk (params kwargs : List (List Char)) : Bool :=
  kwargs.all (fun k => params.contains k) && params.all (fun p => kwargs.contains p)

/-- The parameters declared by `count_present` (scale_up.py line 310). -/
def count_present_params : List (List Char) := [chars "servers", chars "labels"]

/-- The keywords used at the `count_present` call site (scale_up.py line 666). -/
def count_present_call_kwargs : List (List Char) := [chars "server", chars "labels"]

/-- Model of `max_servers_in_workflow_run_reached` (scale_up.py lines 325-341): count the
servers whose name starts with the fleet marker immediately followed by the
decimal run id (no separator) and compare against the per-run maximum. -/
def max_servers_in_workflow_run_reached (run_id : Nat) (servers : List RunnerServer)
    (maxRun : Nat) : Bool :=
  decide ((servers.filter (fun s => (runPref run_id).isPrefixOf s.name)).length ≥ maxRun)

/-- Model of `sorting_key` (scale_up.py lines 470-479): the per-type price, with `none`
modelling `math.inf` for a type missing from the price table. -/
def sorting_key (server_prices : List (List Char × ℚ)) (s : RunnerServer) : Option ℚ :=
  server_prices.lookup s.server_type.name

/-- Key order with `none` as plus infinity. -/
def keyLe (a b : Option ℚ) : Bool :=
  match a, b with
  | _, none => true
  | none, some _ => false
  | some x, some y => decide (x ≤ y)

/-- Insert into a list kept descending under `keyLe` on `key`. -/
def insertDesc (key : RunnerServer → Option ℚ) (s : RunnerServer) :
    List RunnerServer → List RunnerServer
  | [] => [s]
  | t :: ts => if keyLe (key t) (key s) then s :: t :: ts else t :: insertDesc key s ts

/-- Model of `recyclable_servers.sort(key=sorting_key, reverse=True)`:
descending by key; the order among equal keys is not load-bearing for any
claim settled here. -/
def sortDesc (key : RunnerServer → Option ℚ) (l : List RunnerServer) : List RunnerServer :=
  l.foldr (insertDesc key) []

/-- Descending order under `keyLe`. -/
def DescOrdered (key : RunnerServer → Option ℚ) (l : List RunnerServer) : Prop :=
  List.Pairwise (fun a b => keyLe (key b) (key a) = true) l

/-- One outcome of `random.shuffle`: rearrange the list by a permutation of
its positions.  `random.shuffle` draws such a permutation uniformly. -/
def applyPerm (l : List RunnerServer) (σ : Equiv.Perm (Fin l.length)) :
    List RunnerServer :=
  List.ofFn (fun i => l.get (σ i))

/-- A standby-pool spec (the `standby_runner` config record): labels, desired
count, replenish mode. -/
structure StandbyRunner where
  labels : List (List Char)
  count : Nat
  replenish_immediately : Bool
deriving DecidableEq

/-- The configuration surface consulted by one reconciliation cycle, plus the
two injected sources of nondeterminism: `shuffle` (one outcome of
`random.shuffle`) and `uidf` (the stream of generated uids). -/
structure Config where
  recycle : Bool
  server_prices : Option (List (List Char × ℚ))
  with_label : Option (List Char)
  ssh_key : List Char
  default_server_type : ServerType
  default_location : Option Location
  max_servers : Option Nat
  max_servers_in_workflow_run : Option Nat
  standby_runners : List StandbyRunner
  shuffle : List RunnerServer → List RunnerServer
  uidf : Nat → List Char

/-- A provisioning operation submitted to the outer worker pool
(scale_up.py lines 422-436 and 496-511). -/
inductive Submission
  | create (name : List Char) (labels : List (List Char))
      (server_type : ServerType) (server_location : Option Location)
  | recycle (server_name : List Char) (name : List Char) (labels : List (List Char))
deriving DecidableEq

/-- The target server name a submission provisions. -/
def subName : Submission → List Char
  | .create n _ _ _ => n
  | .recycle _ n _ => n

/-- The match test of the recycle scan (scale_up.py lines 411-421): equal
server-type name, location unconstrained or equal, and the candidate's cloud
ssh-key label equal to the configured key. -/
def recycleMatches (stype : ServerType) (sloc : Option Location) (sshKey : List Char)
    (s : RunnerServer) : Bool :=
  decide (s.server_type.name = stype.name) &&
  (match sloc with
   | none => true
   | some loc =>
     match s.server_location with
     | some sl => decide (sl.name = loc.name)
     | none => false) &&
  decide (s.cloudSshKey = some sshKey)

/-- The recycle scan (scale_up.py lines 397-455): walk the snapshot in order
and return the first recyclable-named server passing the match test. -/
def recycleScan (stype : ServerType) (sloc : Option Location) (sshKey : List Char) :
    List RunnerServer → Option RunnerServer
  | [] => none
  | s :: ss =>
    if recyclePref.isPrefixOf s.name && recycleMatches stype sloc sshKey s then some s
    else recycleScan stype sloc sshKey ss

/-- The outcome of the recycle scan as `create_runner_server` sees it: run only
when recycling is enabled (scale_up.py line 397). -/
def recycleScanResult (cfg : Config) (labels : List (List Char))
    (servers : List RunnerServer) : Option RunnerServer :=
  if cfg.recycle then
    recycleScan (get_server_type labels cfg.default_server_type)
      (get_server_location labels cfg.default_location) cfg.ssh_key servers
  else none

/-- The recyclable servers collected by the scan when the fleet-maximum check
runs (scale_up.py lines 397-400 and 463): all recyclable-named snapshot servers
when recycling is enabled (and no candidate matched, else the routine returned
already), empty when recycling is disabled. -/
def recyclablesConsidered (cfg : Config) (servers : List RunnerServer) :
    List RunnerServer :=
  if cfg.recycle then servers.filter (fun s => recyclePref.isPrefixOf s.name) else []

/-- The eviction ordering over the collected recyclables (scale_up.py lines
463-483): one shuffle outcome when no price table is configured, else
descending by per-type price with unknown prices treated as infinite.  The
evicted server is popped from the end of this ordering. -/
def evictionOrder (cfg : Config) (recyclables : List RunnerServer) :
    List RunnerServer :=
  match cfg.server_prices with
  | none => cfg.shuffle recyclables
  | some prices => sortDesc (sorting_key prices) recyclables

/-- The server `recyclable_servers.pop()` returns (scale_up.py line 483). -/
def evictionChoice (cfg : Config) (recyclables : List RunnerServer) :
    Option RunnerServer :=
  (evictionOrder cfg recyclables).getLast?

/-- The placeholder `RunnerServer` registered right after a submission
(scale_up.py lines 440-447 and 514-521). -/
def placeholderServer (nm : List Char) (labels : List (List Char))
    (stype : ServerType) (sloc : Option Location) : RunnerServer :=
  { name := nm, labels := labels, server_type := stype, server_location := sloc }

/-- Model of `create_runner_server` (scale_up.py lines 370-521), one call.  `.error ()`
models the `StopIteration` raise at line 494.  An `.ok` result carries the
updated snapshot, the submitted operation, and the name of the deleted
(evicted) recyclable server if any. -/
def create_runner_server (cfg : Config) (nm : List Char) (labels : List (List Char))
    (servers : List RunnerServer) :
    Except Unit (List RunnerServer × Submission × Option (List Char)) :=
  let stype := get_server_type labels cfg.default_server_type
  let sloc := get_server_location labels cfg.default_location
  let ph := placeholderServer nm labels stype sloc
  match recycleScanResult cfg labels servers with
  | some srv =>
    .ok (servers.erase srv ++ [ph], .recycle srv.name nm labels, none)
  | none =>
    match cfg.max_servers with
    | some m =>
      if servers.length ≥ m then
        match recyclablesConsidered cfg servers with
        | [] => .error ()
        | r :: rs =>
          match evictionChoice cfg (r :: rs) with
          | some chosen =>
            .ok (servers.erase chosen ++ [ph], .create nm labels stype sloc,
              some chosen.name)
          | none => .error ()
      else .ok (servers ++ [ph], .create nm labels stype sloc, none)
    | none => .ok (servers ++ [ph], .create nm labels stype sloc, none)

/-- An external view of one job: id, parent run id, status, declared labels,
and the assigned runner's name and registered label set (the latter two only
meaningful for in-progress jobs). -/
structure Job where
  id : Nat
  run_id : Nat
  status : List Char
  labels : List (List Char)
  runner_name : List Char
  runner_labels : List (List Char)
deriving DecidableEq

/-- A queued workflow run with its jobs. -/
structure Run where
  id : Nat
  jobs : List Job
deriving DecidableEq

/-- Mutable per-cycle state: the server snapshot, the submitted futures, the
names of deleted servers, and the uid counter driving fresh standby names. -/
structure CycState where
  servers : List RunnerServer
  subs : List Submission
  deleted : List (List Char)
  uidCtr : Nat
deriving DecidableEq

/-- Fold one `.ok` result of `create_runner_server` into the cycle state. -/
def applyCrs (st : CycState) (r : List RunnerServer × Submission × Option (List Char)) :
    CycState :=
  { st with
    servers := r.1
    subs := st.subs ++ [r.2.1]
    deleted := st.deleted ++ r.2.2.toList }

/-- Outcome of handling one job: go on to the next job, break out of this run's
jobs (per-run cap hit, line 636), or abort job processing (StopIteration). -/
inductive JobStep
  | cont (st : CycState)
  | brk (st : CycState)
  | stop (st : CycState)
deriving DecidableEq

/-- The per-run cap re-check guarding each provisioning (lines 630-636). -/
def runCapReached (cfg : Config) (runId : Nat) (servers : List RunnerServer) : Bool :=
  match cfg.max_servers_in_workflow_run with
  | some c => max_servers_in_workflow_run_reached runId servers c
  | none => false

/-- The required-label filter (lines 638-643): skip when a required label is
configured and missing from the effective labels. -/
def withLabelMissing (cfg : Config) (labels : List (List Char)) : Bool :=
  match cfg.with_label with
  | some wl => !(labels.contains wl)
  | none => false

/-- Effective labels of a job (lines 594-628): declared labels, except that an
in-progress job is skipped when it runs on a standby-named runner and otherwise
takes the assigned runner's registered label set. -/
def effectiveLabels (job : Job) : Option (List (List Char)) :=
  if job.status = sInProgress then
    (if standbyPref.isPrefixOf job.runner_name then none else some job.runner_labels)
  else some job.labels

/-- Handling of one job inside the queued-runs loop (scale_up.py lines 594-652). -/
def processJob (cfg : Config) (runId : Nat) (st : CycState) (job : Job) : JobStep :=
  if job.status = sCompleted then .cont st
  else if jobServerName job.run_id job.id ∈ st.servers.map (fun s => s.name) then .cont st
  else
    match effectiveLabels job with
    | none => .cont st
    | some labels =>
      if runCapReached cfg runId st.servers then .brk st
      else if withLabelMissing cfg labels then .cont st
      else
        match create_runner_server cfg (jobServerName job.run_id job.id) labels
            st.servers with
        | .ok r => .cont (applyCrs st r)
        | .error _ => .stop st

/-- Result of a job-processing phase: finished normally, or aborted by the
StopIteration signal (caught at line 653). -/
inductive PhaseRes
  | norm (st : CycState)
  | stop (st : CycState)
deriving DecidableEq

/-- The state carried out of a phase (the `except StopIteration: pass` at
lines 653-654 keeps the state as it was at the raise). -/
def stateOf : PhaseRes → CycState
  | .norm st => st
  | .stop st => st

/-- The inner jobs loop of one run (lines 594-652). -/
def processJobs (cfg : Config) (runId : Nat) : List Job → CycState → PhaseRes
  | [], st => .norm st
  | j :: js, st =>
    match processJob cfg runId st j with
    | .cont st' => processJobs cfg runId js st'
    | .brk st' => .norm st'
    | .stop st' => .stop st'

/-- The queued-runs loop (lines 585-652): skip a run whose cap is already met
(lines 586-592), else process its jobs; StopIteration aborts the whole loop. -/
def processRuns (cfg : Config) : List Run → CycState → PhaseRes
  | [], st => .norm st
  | r :: rs, st =>
    if runCapReached cfg r.id st.servers then processRuns cfg rs st
    else
      match processJobs cfg r.id r.jobs st with
      | .norm st' => processRuns cfg rs st'
      | .stop st' => .stop st'

/-- The replenishment loop for one standby spec (lines 669-682): one
create-or-recycle per unit of deficit, breaking on StopIteration. -/
def replenishIter (cfg : Config) (labels : List (List Char)) :
    Nat → CycState → CycState
  | 0, st => st
  | k + 1, st =>
    match create_runner_server cfg (standbyName (cfg.uidf st.uidCtr)) labels
        st.servers with
    | .ok r =>
      let st' := applyCrs st r
      replenishIter cfg labels k { st' with uidCtr := st.uidCtr + 1 }
    | .error _ => st

/-- Handling of one standby spec once `available` is known (lines 668-682). -/
def standbySpecStep (cfg : Config) (st : CycState) (spec : StandbyRunner) : CycState :=
  let available := count_available st.servers spec.labels
  if available < spec.count then replenishIter cfg spec.labels (spec.count - available) st
  else st

/-- The standby-pool loop (lines 656-682).  For a spec with
`replenish_immediately == False` the source calls `count_present` with the
keyword `server=` while the function declares `servers` (line 666): the call
raises `TypeError` at argument binding, modelled as `.error st` carrying the
state reached so far; it propagates to the cycle-level handler at line 691. -/
def processStandby (cfg : Config) : List StandbyRunner → CycState → Except CycState CycState
  | [], st => .ok st
  | spec :: rest, st =>
    if spec.replenish_immediately then
      processStandby cfg rest (standbySpecStep cfg st spec)
    else .error st

/-- One reconciliation cycle after state collection: the queued-runs loop (with
its StopIteration containment) followed by the standby-pool loop. -/
def runCycle (cfg : Config) (runs : List Run) (st : CycState) :
    Except CycState CycState :=
  processStandby cfg cfg.standby_runners (stateOf (processRuns cfg runs st))

/-- The state at the end of the cycle, whether or not the standby loop was
aborted by the count_present TypeError. -/
def finalState : Except CycState CycState → CycState
  | .ok st => st
  | .error st => st

/-- Cycle state right after state collection. -/
def initState (servers : List RunnerServer) : CycState := ⟨servers, [], [], 0⟩

/-- Number of snapshot servers exactly scoped to run `R`. -/
def exactCount (R : Nat) (servers : List RunnerServer) : Nat :=
  servers.countP (fun s => (exactScope R).isPrefixOf s.name)

/-- The state carried by any job-step outcome. -/
def jobStepState : JobStep → CycState
  | .cont st => st
  | .brk st => st
  | .stop st => st

/-- Invariant of the jobs phase relative to the cycle-start name list `names0`:
submitted names are pairwise distinct, present in the snapshot, never
recyclable-shaped, and never names that existed at cycle start; and every
non-recyclable-shaped name present at cycle start is still present. -/
def JobsInv (names0 : List (List Char)) (st : CycState) : Prop :=
  (st.subs.map subName).Nodup ∧
  (∀ sb ∈ st.subs, subName sb ∈ st.servers.map (fun s => s.name)) ∧
  (∀ sb ∈ st.subs, ¬ recyclePref <+: subName sb) ∧
  (∀ sb ∈ st.subs, subName sb ∉ names0) ∧
  (∀ nm, ¬ recyclePref <+: nm → nm ∈ names0 → nm ∈ st.servers.map (fun s => s.name))

/-- Servers counted by the immediate-replenish mode, per the specification:
not powered off, labels a superset of the spec labels, status initializing or
ready. -/
def availableSpecCount (servers : List RunnerServer) (labels : List (List Char)) : Nat :=
  servers.countP (fun s => decide (¬ s.server_status = statusOff ∧
    (∀ l ∈ labels, l ∈ s.labels) ∧ (s.status = stInitializing ∨ s.status = stReady)))

/-- Servers counted by the deferred-replenish mode, per the specification: not
powered off and labels a superset, regardless of business status. -/
def presentSpecCount (servers : List RunnerServer) (labels : List (List Char)) : Nat :=
  servers.countP (fun s => decide (¬ s.server_status = statusOff ∧
    (∀ l ∈ labels, l ∈ s.labels)))

/-- The queued twin of an in-progress job: same ids, status queued, declared
labels replaced by the assigned runner's registered labels. -/
def relabeledJob (job : Job) : Job :=
  { job with status := sQueued, labels := job.runner_labels }

/-- A default server type. -/
def stCX : ServerType := ServerType.mk (chars "cx31")

/-- A recyclable-named server of type t1. -/
def recServer1 : RunnerServer where
  name := chars "github-runner-recycle-1"
  labels := []
  server_type := ServerType.mk (chars "t1")
  server_location := none

/-- A recyclable-named server of type t2. -/
def recServer2 : RunnerServer where
  name := chars "github-runner-recycle-2"
  labels := []
  server_type := ServerType.mk (chars "t2")
  server_location := none

/-- A server carrying the exact job-scoped name of run 1, job 2. -/
def jobSrv12 : RunnerServer where
  name := chars "github-runner-1-2"
  labels := []
  server_type := stCX
  server_location := none

/-- A server carrying the exact job-scoped name of run 12, job 7. -/
def runSrv127 : RunnerServer where
  name := chars "github-runner-12-7"
  labels := []
  server_type := stCX
  server_location := none

/-- A two-entry price table: t1 at 5, t2 at 2. -/
def tblW : List (List Char × ℚ) := [(chars "t1", 5), (chars "t2", 2)]

/-- Base concrete configuration: recycling on, no price table, fleet maximum 1,
per-run cap 1, identity shuffle, constant uid stream. -/
def cfgW : Config where
  recycle := true
  server_prices := none
  with_label := none
  ssh_key := chars "key"
  default_server_type := stCX
  default_location := none
  max_servers := some 1
  max_servers_in_workflow_run := some 1
  standby_runners := []
  shuffle := id
  uidf := fun _ => chars "u"

/-- As `cfgW` with the price table configured and fleet maximum 2. -/
def cfgP : Config := { cfgW with server_prices := some tblW, max_servers := some 2 }

/-- As `cfgW` with recycling off and fleet maximum 0. -/
def cfg5 : Config := { cfgW with max_servers := some 0, recycle := false }

/-- As `cfgW` with no fleet maximum. -/
def cfg7 : Config := { cfgW with max_servers := none }

/-- A queued job of run 1. -/
def jobQ : Job where
  id := 2
  run_id := 1
  status := sQueued
  labels := []
  runner_name := []
  runner_labels := []

/-- An in-progress job running on a standby-named runner. -/
def jobSB : Job where
  id := 3
  run_id := 1
  status := sInProgress
  labels := []
  runner_name := chars "github-runner-standby-x"
  runner_labels := []

/-- An in-progress job on an ordinary runner registered with other labels. -/
def jobIP : Job where
  id := 4
  run_id := 1
  status := sInProgress
  labels := [chars "small"]
  runner_name := chars "other-runner"
  runner_labels := [chars "large", chars "gpu"]

/-- A trivially satisfied immediate standby spec. -/
def spec5 : StandbyRunner where
  labels := []
  count := 0
  replenish_immediately := true

/-- A deferred standby spec. -/
def spec6 : StandbyRunner where
  labels := []
  count := 0
  replenish_immediately := false

/-- An immediate standby spec demanding one server. -/
def spec7 : StandbyRunner where
  labels := []
  count := 1
  replenish_immediately := true

/-! ## Theorems -/

theorem natCharsAux_congr : ∀ n fuel fuel' : Nat, n < fuel → n < fuel' →
    natCharsAux fuel n = natCharsAux fuel' n := by
  intro n
  induction n using Nat.strong_induction_on with
  | _ n ih =>
    intro fuel fuel' hf hf'
    match fuel, fuel' with
    | f + 1, f' + 1 =>
      simp only [natCharsAux]
      by_cases h10 : n < 10
      · simp [h10]
      · simp only [h10, if_false]
        have hdiv : n / 10 < n := Nat.div_lt_self (by omega) (by omega)
        rw [ih (n / 10) hdiv f f' (by omega) (by omega)]

theorem natChars_eq (n : Nat) : natChars n =
    if n < 10 then [Nat.digitChar n]
    else natChars (n / 10) ++ [Nat.digitChar (n % 10)] := by
  show natCharsAux (n + 1) n = _
  by_cases h10 : n < 10
  · simp [natCharsAux, h10]
  · have hdiv : n / 10 < n := Nat.div_lt_self (by omega) (by omega)
    simp only [natCharsAux, h10, if_false]
    rw [natCharsAux_congr (n / 10) n (n / 10 + 1) (by omega) (by omega)]
    rfl

theorem natChars_ne_nil (n : Nat) : natChars n ≠ [] := by
  rw [natChars_eq]
  by_cases h10 : n < 10 <;> simp [h10]

theorem digitChar_isDig {d : Nat} (h : d < 10) : isDig (Nat.digitChar d) = true := by
  interval_cases d <;> decide

theorem mem_natChars_isDig {n : Nat} {c : Char} (h : c ∈ natChars n) : isDig c = true := by
  induction n using Nat.strong_induction_on with
  | _ n ih =>
    rw [natChars_eq] at h
    by_cases h10 : n < 10
    · simp only [h10, if_true, List.mem_singleton] at h
      exact h ▸ digitChar_isDig h10
    · simp only [h10, if_false, List.mem_append, List.mem_singleton] at h
      rcases h with h | h
      · exact ih (n / 10) (Nat.div_lt_self (by omega) (by omega)) h
      · exact h ▸ digitChar_isDig (Nat.mod_lt n (by omega))

theorem dash_not_mem_natChars (n : Nat) : '-' ∉ natChars n := by
  intro h
  have := mem_natChars_isDig h
  simp [isDig] at this

theorem digitChar_inj {a b : Nat} (ha : a < 10) (hb : b < 10)
    (h : Nat.digitChar a = Nat.digitChar b) : a = b := by
  interval_cases a <;> interval_cases b <;> simp_all <;> exact absurd h (by decide)

theorem natChars_inj : ∀ a b : Nat, natChars a = natChars b → a = b := by
  intro a
  induction a using Nat.strong_induction_on with
  | _ a ih =>
    intro b h
    rw [natChars_eq a, natChars_eq b] at h
    by_cases ha : a < 10 <;> by_cases hb : b < 10
    · simp only [ha, hb, if_true, List.cons.injEq] at h
      exact digitChar_inj ha hb h.1
    · exfalso
      simp only [ha, hb, if_true, if_false] at h
      have hlen := congrArg List.length h
      rw [List.length_append] at hlen
      simp only [List.length_singleton] at hlen
      have hpos : 0 < (natChars (b / 10)).length :=
        List.length_pos.mpr (natChars_ne_nil (b / 10))
      omega
    · exfalso
      simp only [ha, hb, if_true, if_false] at h
      have hlen := congrArg List.length h
      rw [List.length_append] at hlen
      simp only [List.length_singleton] at hlen
      have hpos : 0 < (natChars (a / 10)).length :=
        List.length_pos.mpr (natChars_ne_nil (a / 10))
      omega
    · simp only [ha, hb, if_false] at h
      have h2 := List.append_inj' h (by rfl)
      have hdiv : a / 10 = b / 10 :=
        ih (a / 10) (Nat.div_lt_self (by omega) (by omega)) (b / 10) h2.1
      have hmod : a % 10 = b % 10 := by
        have := h2.2
        simp only [List.cons.injEq] at this
        exact digitChar_inj (Nat.mod_lt a (by omega)) (Nat.mod_lt b (by omega)) this.1
      omega

theorem chars_recycle_cons : chars "recycle-" = 'r' :: chars "ecycle-" := rfl

theorem chars_standby_cons : chars "standby-" = 's' :: chars "tandby-" := rfl

theorem pref_first {a b : Char} {u w : List Char} (h : a :: u <+: b :: w) : a = b :=
  (List.cons_prefix_cons.mp h).1

theorem isPrefB_iff {l1 l2 : List Char} : l1.isPrefixOf l2 = true ↔ l1 <+: l2 :=
  List.isPrefixOf_iff_prefix

theorem dash_split : ∀ {xs : List Char}, ∀ {ys u v : List Char},
    xs ++ '-' :: u <+: ys ++ '-' :: v → '-' ∉ xs → '-' ∉ ys → xs = ys := by
  intro xs
  induction xs with
  | nil =>
    intro ys u v h hx hy
    cases ys with
    | nil => rfl
    | cons y ys' =>
      exfalso
      have := pref_first (by simpa using h)
      exact hy (by simp [← this])
  | cons x xs' ih =>
    intro ys u v h hx hy
    cases ys with
    | nil =>
      exfalso
      have := pref_first (by simpa using h)
      exact hx (by simp [this])
    | cons y ys' =>
      have h1 := List.cons_prefix_cons.mp (by simpa using h)
      have h2 : xs' = ys' :=
        ih h1.2 (fun hc => hx (List.mem_cons_of_mem _ hc))
          (fun hc => hy (List.mem_cons_of_mem _ hc))
      rw [h1.1, h2]

theorem natChars_cons (n : Nat) :
    ∃ c cs, natChars n = c :: cs ∧ isDig c = true := by
  rcases hc : natChars n with _ | ⟨c, cs⟩
  · exact absurd hc (natChars_ne_nil n)
  · exact ⟨c, cs, rfl, mem_natChars_isDig (hc ▸ List.mem_cons_self c cs)⟩

theorem isDig_ne_r {c : Char} (hd : isDig c = true) : c ≠ 'r' := by
  intro h
  rw [h] at hd
  simp [isDig] at hd

theorem isDig_ne_s {c : Char} (hd : isDig c = true) : c ≠ 's' := by
  intro h
  rw [h] at hd
  simp [isDig] at hd

/-- Two names in the fleet namespace whose first characters after the fleet
marker differ are not prefix-comparable. -/
theorem snPref_clash {A B : List Char} {c d : Char} {A' B' : List Char}
    (hA : A = c :: A') (hB : B = d :: B') (hne : c ≠ d)
    (h : snPref ++ A <+: snPref ++ B) : False := by
  rw [hA, hB] at h
  exact hne (pref_first ((List.prefix_append_right_inj snPref).mp h))

theorem not_recycle_jobName (rid jid : Nat) :
    ¬ recyclePref <+: jobServerName rid jid := by
  intro h
  obtain ⟨c, cs, hc, hd⟩ := natChars_cons rid
  rw [recyclePref, jobServerName, List.append_assoc] at h
  exact snPref_clash chars_recycle_cons (by rw [hc]; rfl)
    (fun he => isDig_ne_r hd he.symm) h

theorem not_standby_jobName (rid jid : Nat) :
    ¬ standbyPref <+: jobServerName rid jid := by
  intro h
  obtain ⟨c, cs, hc, hd⟩ := natChars_cons rid
  rw [standbyPref, jobServerName, List.append_assoc] at h
  exact snPref_clash chars_standby_cons (by rw [hc]; rfl)
    (fun he => isDig_ne_s hd he.symm) h

theorem not_recycle_standbyName (u : List Char) :
    ¬ recyclePref <+: standbyName u := by
  intro h
  rw [recyclePref, standbyName, standbyPref, List.append_assoc] at h
  exact snPref_clash chars_recycle_cons
    (show chars "standby-" ++ u = 's' :: (chars "tandby-" ++ u) from rfl)
    (by decide) h

theorem exactScope_imp_runPref {rid : Nat} {nm : List Char}
    (h : exactScope rid <+: nm) : runPref rid <+: nm := by
  refine List.IsPrefix.trans ?_ h
  rw [runPref, exactScope, List.append_assoc]
  exact (List.prefix_append_right_inj snPref).mpr (List.prefix_append _ _)

theorem exactScope_jobName_iff (R rid jid : Nat) :
    exactScope R <+: jobServerName rid jid ↔ R = rid := by
  constructor
  · intro h
    rw [exactScope, jobServerName, List.append_assoc, List.append_assoc] at h
    have h2 := (List.prefix_append_right_inj snPref).mp h
    have h3 : natChars R ++ '-' :: [] <+: natChars rid ++ '-' :: natChars jid := by
      simpa using h2
    exact natChars_inj _ _ (dash_split h3 (dash_not_mem_natChars R) (dash_not_mem_natChars rid))
  · intro h
    subst h
    rw [exactScope, jobServerName, List.append_assoc, List.append_assoc]
    refine (List.prefix_append_right_inj snPref).mpr ?_
    refine (List.prefix_append_right_inj (natChars R)).mpr ?_
    simp [List.cons_prefix_cons]

theorem not_exactScope_standbyName (R : Nat) (u : List Char) :
    ¬ exactScope R <+: standbyName u := by
  intro h
  obtain ⟨c, cs, hc, hd⟩ := natChars_cons R
  rw [exactScope, standbyName, standbyPref, List.append_assoc, List.append_assoc] at h
  exact snPref_clash (show natChars R ++ ['-'] = c :: (cs ++ ['-']) by rw [hc]; rfl)
    (show chars "standby-" ++ u = 's' :: (chars "tandby-" ++ u) from rfl)
    (fun he => isDig_ne_s hd he) h

theorem not_exactScope_of_recycleShaped {R : Nat} {nm : List Char}
    (hrec : recyclePref <+: nm) (h : exactScope R <+: nm) : False := by
  obtain ⟨c, cs, hc, hd⟩ := natChars_cons R
  have hA : natChars R ++ ['-'] = c :: (cs ++ ['-']) := by rw [hc]; rfl
  rcases List.prefix_or_prefix_of_prefix h hrec with h2 | h2
  · rw [exactScope, recyclePref, List.append_assoc] at h2
    exact snPref_clash hA chars_recycle_cons (fun he => isDig_ne_r hd he) h2
  · rw [exactScope, recyclePref, List.append_assoc] at h2
    exact snPref_clash chars_recycle_cons hA (fun he => isDig_ne_r hd he.symm) h2

theorem runPref_le_of_natChars_le {r1 r2 : Nat} (h : natChars r1 <+: natChars r2)
    {nm : List Char} (hnm : exactScope r2 <+: nm) : runPref r1 <+: nm := by
  refine List.IsPrefix.trans ?_ hnm
  rw [runPref, exactScope, List.append_assoc]
  refine (List.prefix_append_right_inj snPref).mpr ?_
  exact List.IsPrefix.trans h (List.prefix_append _ _)

theorem keyLe_refl (a : Option ℚ) : keyLe a a = true := by
  cases a <;> simp [keyLe]

theorem keyLe_total {a b : Option ℚ} (h : keyLe a b = false) : keyLe b a = true := by
  cases a <;> cases b <;> simp_all [keyLe] <;> linarith

theorem keyLe_trans {a b c : Option ℚ} (h1 : keyLe a b = true) (h2 : keyLe b c = true) :
    keyLe a c = true := by
  cases a <;> cases b <;> cases c <;> simp_all [keyLe] <;> linarith

theorem insertDesc_perm (key : RunnerServer → Option ℚ) (s : RunnerServer) :
    ∀ l : List RunnerServer, (insertDesc key s l).Perm (s :: l) := by
  intro l
  induction l with
  | nil => simp [insertDesc]
  | cons t ts ih =>
    rw [insertDesc]
    by_cases h : keyLe (key t) (key s) = true
    · simp [h]
    · simp only [h, if_false]
      calc t :: insertDesc key s ts
          |>.Perm (t :: s :: ts) := List.Perm.cons t ih
        _ |>.Perm (s :: t :: ts) := List.Perm.swap s t ts

theorem sortDesc_perm (key : RunnerServer → Option ℚ) (l : List RunnerServer) :
    (sortDesc key l).Perm l := by
  induction l with
  | nil => simp [sortDesc]
  | cons t ts ih =>
    rw [sortDesc, List.foldr_cons]
    calc insertDesc key t (List.foldr (insertDesc key) [] ts)
        |>.Perm (t :: List.foldr (insertDesc key) [] ts) := insertDesc_perm key t _
      _ |>.Perm (t :: ts) := List.Perm.cons t ih

theorem insertDesc_descOrdered {key : RunnerServer → Option ℚ} {s : RunnerServer}
    {l : List RunnerServer} (h : DescOrdered key l) :
    DescOrdered key (insertDesc key s l) := by
  induction l with
  | nil => simp [insertDesc, DescOrdered]
  | cons t ts ih =>
    rw [DescOrdered, List.pairwise_cons] at h
    rw [insertDesc]
    by_cases hts : keyLe (key t) (key s) = true
    · simp only [hts, if_true]
      rw [DescOrdered, List.pairwise_cons]
      constructor
      · intro z hz
        rcases List.mem_cons.mp hz with rfl | hz
        · exact hts
        · exact keyLe_trans (h.1 z hz) hts
      · exact List.pairwise_cons.mpr h
    · rw [if_neg hts]
      rw [DescOrdered, List.pairwise_cons]
      constructor
      · intro z hz
        have hz' := (insertDesc_perm key s ts).mem_iff.mp hz
        rcases List.mem_cons.mp hz' with rfl | hz'
        · exact keyLe_total (Bool.eq_false_iff.mpr hts)
        · exact h.1 z hz'
      · exact ih h.2

theorem sortDesc_descOrdered (key : RunnerServer → Option ℚ) (l : List RunnerServer) :
    DescOrdered key (sortDesc key l) := by
  induction l with
  | nil => simp [sortDesc, DescOrdered]
  | cons t ts ih =>
    rw [sortDesc, List.foldr_cons]
    exact insertDesc_descOrdered ih

theorem mem_of_getLastEq {α : Type} {l : List α} {a : α} (h : l.getLast? = some a) :
    a ∈ l := by
  obtain ⟨hne, rfl⟩ := List.mem_getLast?_eq_getLast (show a ∈ l.getLast? from h)
  exact List.getLast_mem hne

/-- In a descending list the last element is a minimum of the keys. -/
theorem getLast_min_of_descOrdered {key : RunnerServer → Option ℚ} :
    ∀ {l : List RunnerServer}, DescOrdered key l → ∀ {e : RunnerServer},
    l.getLast? = some e → ∀ x ∈ l, keyLe (key e) (key x) = true := by
  intro l
  induction l with
  | nil => intro _ e he; simp at he
  | cons t ts ih =>
    intro h e he x hx
    cases ts with
    | nil =>
      simp only [List.getLast?_singleton, Option.some.injEq] at he
      rcases List.mem_singleton.mp hx with rfl
      rw [← he]
      exact keyLe_refl _
    | cons u us =>
      rw [List.getLast?_cons_cons] at he
      rw [DescOrdered, List.pairwise_cons] at h
      rcases List.mem_cons.mp hx with rfl | hx
      · exact h.1 e (mem_of_getLastEq he)
      · exact ih h.2 he x hx

theorem applyPerm_perm (l : List RunnerServer) (σ : Equiv.Perm (Fin l.length)) :
    (applyPerm l σ).Perm l := by
  have h1 : applyPerm l σ = ((List.finRange l.length).map σ).map l.get := by
    rw [applyPerm, List.ofFn_eq_map, List.map_map]
    rfl
  have h2 : ((List.finRange l.length).map σ).Perm (List.finRange l.length) := by
    refine List.perm_of_nodup_nodup_toFinset_eq
      ((List.nodup_finRange _).map σ.injective) (List.nodup_finRange _) ?_
    ext j
    simp only [List.mem_toFinset, List.mem_map, List.mem_finRange, true_and]
    exact ⟨fun _ => trivial, fun _ => ⟨σ.symm j, σ.apply_symm_apply j⟩⟩
  rw [h1]
  have h3 := h2.map l.get
  have h4 : (List.finRange l.length).map l.get = l := by
    rw [← List.ofFn_eq_map, List.ofFn_get]
  rw [h4] at h3
  exact h3

theorem applyPerm_getLast (l : List RunnerServer) (σ : Equiv.Perm (Fin l.length))
    (hn : 0 < l.length) :
    (applyPerm l σ).getLast? =
      some (l.get (σ ⟨l.length - 1, Nat.sub_lt hn Nat.one_pos⟩)) := by
  rw [applyPerm, List.getLast?_eq_getElem?]
  simp [List.getElem?_ofFn, Nat.sub_lt hn Nat.one_pos]

theorem perm_last_count_eq {n : Nat} (hn : 0 < n) (i j : Fin n) :
    (Finset.univ.filter
      (fun σ : Equiv.Perm (Fin n) => σ ⟨n - 1, Nat.sub_lt hn Nat.one_pos⟩ = i)).card =
    (Finset.univ.filter
      (fun σ : Equiv.Perm (Fin n) => σ ⟨n - 1, Nat.sub_lt hn Nat.one_pos⟩ = j)).card := by
  set x : Fin n := ⟨n - 1, Nat.sub_lt hn Nat.one_pos⟩
  refine Finset.card_bij' (fun σ _ => σ.trans (Equiv.swap i j))
    (fun τ _ => τ.trans (Equiv.swap i j)) ?_ ?_ ?_ ?_
  · intro σ hσ
    simp only [Finset.mem_filter, Finset.mem_univ, true_and] at hσ ⊢
    rw [Equiv.trans_apply, hσ, Equiv.swap_apply_left]
  · intro τ hτ
    simp only [Finset.mem_filter, Finset.mem_univ, true_and] at hτ ⊢
    rw [Equiv.trans_apply, hτ, Equiv.swap_apply_right]
  · intro σ _
    ext y
    simp [Equiv.trans_apply, Equiv.swap_apply_self]
  · intro τ _
    ext y
    simp [Equiv.trans_apply, Equiv.swap_apply_self]

/-- Uniformity of eviction under the shuffle model: every position of the
recyclable list is selected (as the post-shuffle last element) by equally many
permutations. -/
theorem applyPerm_pick_uniform {l : List RunnerServer} (hnd : l.Nodup)
    (i j : Fin l.length) :
    (Finset.univ.filter
      (fun σ : Equiv.Perm (Fin l.length) =>
        (applyPerm l σ).getLast? = some (l.get i))).card =
    (Finset.univ.filter
      (fun σ : Equiv.Perm (Fin l.length) =>
        (applyPerm l σ).getLast? = some (l.get j))).card := by
  have hn : 0 < l.length := i.pos
  have hinj := (@List.nodup_iff_injective_get _ l).mp hnd
  have hcong : ∀ k : Fin l.length,
      (Finset.univ.filter
        (fun σ : Equiv.Perm (Fin l.length) =>
          (applyPerm l σ).getLast? = some (l.get k))) =
      (Finset.univ.filter
        (fun σ : Equiv.Perm (Fin l.length) =>
          σ ⟨l.length - 1, Nat.sub_lt hn Nat.one_pos⟩ = k)) := by
    intro k
    apply Finset.filter_congr
    intro σ _
    rw [applyPerm_getLast l σ hn]
    simp only [Option.some.injEq, eq_iff_iff]
    exact ⟨fun h => hinj h, fun h => by rw [h]⟩
  rw [hcong i, hcong j]
  exact perm_last_count_eq hn i j

theorem recycleScan_mem {stype : ServerType} {sloc : Option Location}
    {sshKey : List Char} :
    ∀ {l : List RunnerServer} {s : RunnerServer},
    recycleScan stype sloc sshKey l = some s → s ∈ l ∧ recyclePref <+: s.name := by
  intro l
  induction l with
  | nil => intro s h; simp [recycleScan] at h
  | cons t ts ih =>
    intro s h
    rw [recycleScan] at h
    by_cases hc : (recyclePref.isPrefixOf t.name && recycleMatches stype sloc sshKey t) = true
    · rw [if_pos hc] at h
      obtain rfl : t = s := by simpa using h
      refine ⟨List.mem_cons_self _ _, ?_⟩
      have := (Bool.and_eq_true _ _).mp hc
      exact isPrefB_iff.mp this.1
    · rw [if_neg hc] at h
      obtain ⟨hm, hp⟩ := ih h
      exact ⟨List.mem_cons_of_mem _ hm, hp⟩

theorem recycleScan_none_of_no_recyclable {stype : ServerType} {sloc : Option Location}
    {sshKey : List Char} :
    ∀ {l : List RunnerServer},
    (∀ s ∈ l, ¬ recyclePref <+: s.name) → recycleScan stype sloc sshKey l = none := by
  intro l
  induction l with
  | nil => intro _; rfl
  | cons t ts ih =>
    intro h
    rw [recycleScan]
    have hpf : recyclePref.isPrefixOf t.name = false := by
      rw [Bool.eq_false_iff]
      intro hx
      exact h t (List.mem_cons_self _ _) (isPrefB_iff.mp hx)
    rw [hpf]
    simp only [Bool.false_and, if_false]
    exact ih (fun s hs => h s (List.mem_cons_of_mem _ hs))

theorem mem_recyclablesConsidered {cfg : Config} {servers : List RunnerServer}
    {s : RunnerServer} (h : s ∈ recyclablesConsidered cfg servers) :
    s ∈ servers ∧ recyclePref <+: s.name := by
  rw [recyclablesConsidered] at h
  by_cases hr : cfg.recycle
  · rw [if_pos hr] at h
    have := List.mem_filter.mp h
    exact ⟨this.1, isPrefB_iff.mp this.2⟩
  · rw [if_neg hr] at h
    simp at h

theorem evictionOrder_perm (cfg : Config) (hsh : ∀ l, (cfg.shuffle l).Perm l)
    (recyclables : List RunnerServer) :
    (evictionOrder cfg recyclables).Perm recyclables := by
  rw [evictionOrder]
  match cfg.server_prices with
  | none => exact hsh recyclables
  | some prices => exact sortDesc_perm (sorting_key prices) recyclables

theorem evictionChoice_mem {cfg : Config} (hsh : ∀ l, (cfg.shuffle l).Perm l)
    {recyclables : List RunnerServer} {chosen : RunnerServer}
    (h : evictionChoice cfg recyclables = some chosen) : chosen ∈ recyclables :=
  (evictionOrder_perm cfg hsh recyclables).mem_iff.mp
    (mem_of_getLastEq h)

theorem evictionChoice_isSome {cfg : Config} (hsh : ∀ l, (cfg.shuffle l).Perm l)
    {recyclables : List RunnerServer} (hne : recyclables ≠ []) :
    ∃ chosen, evictionChoice cfg recyclables = some chosen := by
  rw [evictionChoice]
  rcases he : (evictionOrder cfg recyclables).getLast? with _ | c
  · exfalso
    rw [List.getLast?_eq_none_iff] at he
    have : recyclables.Perm [] := he ▸ (evictionOrder_perm cfg hsh recyclables).symm
    exact hne this.eq_nil
  · exact ⟨c, rfl⟩

/-- A successful `create_runner_server` call appends exactly the placeholder
for the requested name, after removing at most one recyclable-named server
from the snapshot. -/
theorem crs_ok_shape {cfg : Config} {nm : List Char} {labels : List (List Char)}
    {servers srv' : List RunnerServer} {sub : Submission} {d : Option (List Char)}
    (hsh : ∀ l, (cfg.shuffle l).Perm l)
    (hok : create_runner_server cfg nm labels servers = .ok (srv', sub, d)) :
    subName sub = nm ∧
    ∃ rem, srv' = rem ++ [placeholderServer nm labels
        (get_server_type labels cfg.default_server_type)
        (get_server_location labels cfg.default_location)] ∧
      ((rem = servers ∧ d = none) ∨
        ∃ rs, rs ∈ servers ∧ recyclePref <+: rs.name ∧ rem = servers.erase rs ∧
          (sub = .recycle rs.name nm labels ∧ d = none ∨ d = some rs.name)) := by
  rw [create_runner_server] at hok
  split at hok
  · rename_i srv hscan
    simp only [Except.ok.injEq, Prod.mk.injEq] at hok
    rw [recycleScanResult] at hscan
    by_cases hr : cfg.recycle
    · rw [if_pos hr] at hscan
      obtain ⟨hms, hpr⟩ := recycleScan_mem hscan
      exact ⟨by rw [← hok.2.1]; rfl, servers.erase srv, by rw [← hok.1],
        Or.inr ⟨srv, hms, hpr, rfl,
          Or.inl ⟨by rw [← hok.2.1], by rw [← hok.2.2]⟩⟩⟩
    · rw [if_neg hr] at hscan
      exact absurd hscan (by simp)
  · split at hok
    · split at hok
      · split at hok
        · exact absurd hok (by simp)
        · split at hok
          · rename_i scrList rhd rtl hrec scrOpt chosen hch
            simp only [Except.ok.injEq, Prod.mk.injEq] at hok
            have hmem : chosen ∈ recyclablesConsidered cfg servers := by
              rw [hrec]
              exact evictionChoice_mem hsh hch
            obtain ⟨hms, hpr⟩ := mem_recyclablesConsidered hmem
            exact ⟨by rw [← hok.2.1]; rfl, servers.erase chosen, by rw [← hok.1],
              Or.inr ⟨chosen, hms, hpr, rfl, Or.inr (by rw [← hok.2.2])⟩⟩
          · exact absurd hok (by simp)
      · simp only [Except.ok.injEq, Prod.mk.injEq] at hok
        exact ⟨by rw [← hok.2.1]; rfl, servers, by rw [← hok.1],
          Or.inl ⟨rfl, by rw [← hok.2.2]⟩⟩
    · simp only [Except.ok.injEq, Prod.mk.injEq] at hok
      exact ⟨by rw [← hok.2.1]; rfl, servers, by rw [← hok.1],
        Or.inl ⟨rfl, by rw [← hok.2.2]⟩⟩

theorem countP_erase_of_not {α : Type} [DecidableEq α] {P : α → Bool} {a : α}
    (hP : P a = false) : ∀ l : List α, (l.erase a).countP P = l.countP P := by
  intro l
  induction l with
  | nil => rfl
  | cons b t ih =>
    by_cases hb : b = a
    · subst hb
      rw [List.erase_cons_head, List.countP_cons, hP]
      simp
    · rw [List.erase_cons_tail (by simpa using hb), List.countP_cons, List.countP_cons, ih]

theorem max_reached_iff (R : Nat) (servers : List RunnerServer) (c : Nat) :
    max_servers_in_workflow_run_reached R servers c = true ↔
      c ≤ servers.countP (fun s => (runPref R).isPrefixOf s.name) := by
  rw [max_servers_in_workflow_run_reached, decide_eq_true_iff, List.countP_eq_length_filter]

theorem exactCount_le_runPrefCount (R : Nat) (servers : List RunnerServer) :
    exactCount R servers ≤ servers.countP (fun s => (runPref R).isPrefixOf s.name) := by
  refine List.countP_mono_left ?_
  intro s _ h
  rw [isPrefB_iff] at h ⊢
  exact exactScope_imp_runPref h

/-- Effect of one successful `create_runner_server` call on the exact per-run
count: it grows by one exactly when the requested name is scoped to the run;
the possible eviction removes a recyclable-named server, which is never
run-scoped. -/
theorem crs_exactCount {cfg : Config} {nm : List Char} {labels : List (List Char)}
    {servers srv' : List RunnerServer} {sub : Submission} {d : Option (List Char)}
    (hsh : ∀ l, (cfg.shuffle l).Perm l)
    (hok : create_runner_server cfg nm labels servers = .ok (srv', sub, d)) (R : Nat) :
    exactCount R srv' =
      exactCount R servers + (if (exactScope R).isPrefixOf nm then 1 else 0) := by
  obtain ⟨-, rem, hsrv, hrem⟩ := crs_ok_shape hsh hok
  have hph : (placeholderServer nm labels
      (get_server_type labels cfg.default_server_type)
      (get_server_location labels cfg.default_location)).name = nm := rfl
  have hremc : exactCount R rem = exactCount R servers := by
    rcases hrem with ⟨rfl, -⟩ | ⟨rs, hms, hpr, rfl, -⟩
    · rfl
    · rw [exactCount, exactCount]
      refine countP_erase_of_not ?_ servers
      rw [Bool.eq_false_iff]
      intro hx
      exact not_exactScope_of_recycleShaped hpr (isPrefB_iff.mp hx)
  rw [hsrv, exactCount, List.countP_append, List.countP_cons, List.countP_nil]
  rw [exactCount] at hremc
  rw [hremc, hph]
  by_cases hc : (exactScope R).isPrefixOf nm = true
  · simp [hc]
  · simp [hc]

/-- Names that are not recyclable-named survive a successful call. -/
theorem crs_name_mono {cfg : Config} {nm nm' : List Char} {labels : List (List Char)}
    {servers srv' : List RunnerServer} {sub : Submission} {d : Option (List Char)}
    (hsh : ∀ l, (cfg.shuffle l).Perm l)
    (hok : create_runner_server cfg nm labels servers = .ok (srv', sub, d))
    (hmem : nm' ∈ servers.map (fun s => s.name)) (hnr : ¬ recyclePref <+: nm') :
    nm' ∈ srv'.map (fun s => s.name) := by
  obtain ⟨-, rem, hsrv, hrem⟩ := crs_ok_shape hsh hok
  have hremm : nm' ∈ rem.map (fun s => s.name) := by
    rcases hrem with ⟨rfl, -⟩ | ⟨rs, hms, hpr, rfl, -⟩
    · exact hmem
    · obtain ⟨s, hs, hsn⟩ := List.mem_map.mp hmem
      have hne : s ≠ rs := by
        intro he
        rw [he] at hsn
        exact hnr (hsn ▸ hpr)
      exact List.mem_map.mpr ⟨s, (List.mem_erase_of_ne hne).mpr hs, hsn⟩
  rw [hsrv, List.map_append]
  exact List.mem_append.mpr (Or.inl hremm)

/-- The requested name is in the snapshot after a successful call, and the
submission targets exactly that name. -/
theorem crs_name_added {cfg : Config} {nm : List Char} {labels : List (List Char)}
    {servers srv' : List RunnerServer} {sub : Submission} {d : Option (List Char)}
    (hsh : ∀ l, (cfg.shuffle l).Perm l)
    (hok : create_runner_server cfg nm labels servers = .ok (srv', sub, d)) :
    subName sub = nm ∧ nm ∈ srv'.map (fun s => s.name) := by
  obtain ⟨hsub, rem, hsrv, -⟩ := crs_ok_shape hsh hok
  refine ⟨hsub, ?_⟩
  rw [hsrv, List.map_append]
  exact List.mem_append.mpr (Or.inr (by simp [placeholderServer]))

/-- The StopIteration signal is raised iff the configured fleet maximum is
reached and the routine has no recyclable server at hand. -/
theorem crs_error_iff {cfg : Config} {nm : List Char} {labels : List (List Char)}
    {servers : List RunnerServer} (hsh : ∀ l, (cfg.shuffle l).Perm l) :
    create_runner_server cfg nm labels servers = .error () ↔
      (∃ m, cfg.max_servers = some m ∧ m ≤ servers.length) ∧
        recyclablesConsidered cfg servers = [] := by
  constructor
  · intro h
    rw [create_runner_server] at h
    split at h
    · exact absurd h (by simp)
    · split at h
      · split at h
        · rename_i hscan m hmax hlen
          split at h
          · rename_i hrec
            exact ⟨⟨m, hmax, hlen⟩, hrec⟩
          · split at h
            · exact absurd h (by simp)
            · rename_i scrL rhd rtl hrec scrO hch
              exfalso
              obtain ⟨c, hc⟩ := @evictionChoice_isSome cfg hsh (rhd :: rtl)
                (List.cons_ne_nil rhd rtl)
              rw [hch] at hc
              exact Option.noConfusion hc
        · exact absurd h (by simp)
      · exact absurd h (by simp)
  · rintro ⟨⟨m, hmax, hlen⟩, hrec⟩
    rw [create_runner_server]
    have hscan : recycleScanResult cfg labels servers = none := by
      rw [recycleScanResult]
      by_cases hr : cfg.recycle
      · rw [if_pos hr]
        rw [recyclablesConsidered, if_pos hr] at hrec
        refine recycleScan_none_of_no_recyclable ?_
        intro s hs hpre
        have := List.filter_eq_nil_iff.mp hrec s hs
        exact this (isPrefB_iff.mpr hpre)
      · rw [if_neg hr]
    rw [hscan, hmax]
    simp only
    rw [if_pos (show servers.length ≥ m from hlen), hrec]

/-- A successful call never grows the snapshot beyond a configured maximum it
already respected. -/
theorem crs_ok_length_le {cfg : Config} {nm : List Char} {labels : List (List Char)}
    {servers srv' : List RunnerServer} {sub : Submission} {d : Option (List Char)}
    {m : Nat} (hsh : ∀ l, (cfg.shuffle l).Perm l) (hmax : cfg.max_servers = some m)
    (hlen : servers.length ≤ m)
    (hok : create_runner_server cfg nm labels servers = .ok (srv', sub, d)) :
    srv'.length ≤ m := by
  rw [create_runner_server] at hok
  split at hok
  · rename_i srv hscan
    simp only [Except.ok.injEq, Prod.mk.injEq] at hok
    rw [recycleScanResult] at hscan
    by_cases hr : cfg.recycle
    · rw [if_pos hr] at hscan
      obtain ⟨hms, -⟩ := recycleScan_mem hscan
      have h1 : 1 ≤ servers.length := List.length_pos.mpr (List.ne_nil_of_mem hms)
      have h2 : srv'.length = (servers.erase srv).length + 1 := by
        rw [← hok.1]
        simp
      rw [h2, List.length_erase_of_mem hms]
      omega
    · rw [if_neg hr] at hscan
      exact absurd hscan (by simp)
  · split at hok
    · rename_i hscan m' hmax'
      rw [hmax] at hmax'
      injection hmax' with hm
      subst hm
      split at hok
      · split at hok
        · exact absurd hok (by simp)
        · split at hok
          · rename_i scrList rhd rtl hrec scrOpt chosen hch
            simp only [Except.ok.injEq, Prod.mk.injEq] at hok
            have hmem0 : chosen ∈ recyclablesConsidered cfg servers := by
              rw [hrec]
              exact evictionChoice_mem hsh hch
            have hmem : chosen ∈ servers := (mem_recyclablesConsidered hmem0).1
            have h1 : 1 ≤ servers.length := List.length_pos.mpr (List.ne_nil_of_mem hmem)
            have h2 : srv'.length = (servers.erase chosen).length + 1 := by
              rw [← hok.1]
              simp
            rw [h2, List.length_erase_of_mem hmem]
            omega
          · exact absurd hok (by simp)
      · rename_i hlt
        simp only [Except.ok.injEq, Prod.mk.injEq] at hok
        have h2 : srv'.length = servers.length + 1 := by
          rw [← hok.1]
          simp
        omega
    · rename_i hscan hmaxnone
      rw [hmax] at hmaxnone
      exact Option.noConfusion hmaxnone

/-- At the configured maximum with a recyclable server at hand, the routine
succeeds, keeps the snapshot size unchanged, and either recycles a
recyclable-named server in place or deletes one to make room. -/
theorem crs_at_max {cfg : Config} {nm : List Char} {labels : List (List Char)}
    {servers : List RunnerServer} {m : Nat}
    (hsh : ∀ l, (cfg.shuffle l).Perm l) (hmax : cfg.max_servers = some m)
    (hlen : servers.length = m)
    (hrec : recyclablesConsidered cfg servers ≠ []) :
    ∃ srv' sub d, create_runner_server cfg nm labels servers = .ok (srv', sub, d) ∧
      srv'.length = m ∧
      ((∃ old, sub = .recycle old nm labels ∧ d = none) ∨
        (∃ rs, rs ∈ servers ∧ recyclePref <+: rs.name ∧ d = some rs.name)) := by
  rcases hres : create_runner_server cfg nm labels servers with he | ⟨srv', sub, d⟩
  · cases he
    have := (crs_error_iff hsh).mp hres
    exact absurd this.2 hrec
  · obtain ⟨hsub, rem, hsrv, hremc⟩ := crs_ok_shape hsh hres
    rcases hremc with ⟨rfl, hd⟩ | ⟨rs, hms, hpr, hrm, hcase⟩
    · exfalso
      have hle := crs_ok_length_le hsh hmax (le_of_eq hlen) hres
      rw [hsrv] at hle
      simp at hle
      omega
    · refine ⟨srv', sub, d, rfl, ?_, ?_⟩
      · have h1 : 1 ≤ servers.length := List.length_pos.mpr (List.ne_nil_of_mem hms)
        rw [hsrv, hrm, List.length_append, List.length_singleton,
          List.length_erase_of_mem hms]
        omega
      · rcases hcase with ⟨hs, hdn⟩ | hd
        · exact Or.inl ⟨rs.name, hs, hdn⟩
        · exact Or.inr ⟨rs, hms, hpr, hd⟩

theorem crs_ok_of_max_none {cfg : Config} {nm : List Char} {labels : List (List Char)}
    {servers : List RunnerServer} (hmax : cfg.max_servers = none) :
    ∃ r, create_runner_server cfg nm labels servers = .ok r := by
  rw [create_runner_server]
  rcases hs : recycleScanResult cfg labels servers with _ | srv
  · rw [hmax]
    exact ⟨_, rfl⟩
  · exact ⟨_, rfl⟩

/-- Handling one job preserves the exact per-run bound, because every
provisioning inside a run is guarded by the per-run cap re-check. -/
theorem processJob_exactCount {cfg : Config} {R C runId : Nat} {st : CycState}
    {job : Job} (hsh : ∀ l, (cfg.shuffle l).Perm l)
    (hmaxr : cfg.max_servers_in_workflow_run = some C)
    (hjr : job.run_id = runId)
    (hinv : exactCount R st.servers ≤ C) :
    exactCount R (jobStepState (processJob cfg runId st job)).servers ≤ C := by
  rw [processJob]
  split
  · exact hinv
  · split
    · exact hinv
    · split
      · exact hinv
      · rename_i labels hlab
        split
        · exact hinv
        · rename_i hcap
          split
          · exact hinv
          · split
            · rename_i r hok
              rw [jobStepState]
              rcases r with ⟨srv2, sub2, d2⟩
              have hcnt := crs_exactCount hsh hok R
              rw [applyCrs]
              simp only
              by_cases hsc : (exactScope R).isPrefixOf (jobServerName job.run_id job.id) = true
              · have hRr : R = job.run_id :=
                  (exactScope_jobName_iff R job.run_id job.id).mp
                    (isPrefB_iff.mp hsc)
                have hcapf : max_servers_in_workflow_run_reached runId st.servers C
                    = false := by
                  have h0 : runCapReached cfg runId st.servers = false :=
                    Bool.eq_false_iff.mpr hcap
                  rw [runCapReached, hmaxr] at h0
                  exact h0
                have hlt : ¬ C ≤ st.servers.countP
                    (fun s => (runPref runId).isPrefixOf s.name) := by
                  intro hle
                  have := (max_reached_iff runId st.servers C).mpr hle
                  rw [this] at hcapf
                  exact Bool.noConfusion hcapf
                have hexlt : exactCount R st.servers <
                    C := by
                  have h1 := exactCount_le_runPrefCount R st.servers
                  rw [hRr, hjr] at h1 ⊢
                  omega
                rw [hcnt, if_pos hsc]
                rw [hRr, hjr] at hexlt ⊢
                omega
              · rw [hcnt, if_neg hsc]
                simpa using hinv
            · exact hinv

theorem processJobs_exactCount {cfg : Config} {R C runId : Nat}
    (hsh : ∀ l, (cfg.shuffle l).Perm l)
    (hmaxr : cfg.max_servers_in_workflow_run = some C) :
    ∀ (jobs : List Job) (st : CycState), (∀ j ∈ jobs, j.run_id = runId) →
    exactCount R st.servers ≤ C →
    exactCount R (stateOf (processJobs cfg runId jobs st)).servers ≤ C := by
  intro jobs
  induction jobs with
  | nil => intro st _ hinv; exact hinv
  | cons j js ih =>
    intro st hjr hinv
    rw [processJobs]
    have hstep := processJob_exactCount hsh hmaxr (hjr j (List.mem_cons_self _ _)) hinv
    rcases hpj : processJob cfg runId st j with st' | st' | st'
    · rw [hpj] at hstep
      exact ih st' (fun x hx => hjr x (List.mem_cons_of_mem _ hx)) hstep
    · rw [hpj] at hstep
      exact hstep
    · rw [hpj] at hstep
      exact hstep

theorem processRuns_exactCount {cfg : Config} {R C : Nat}
    (hsh : ∀ l, (cfg.shuffle l).Perm l)
    (hmaxr : cfg.max_servers_in_workflow_run = some C) :
    ∀ (runs : List Run) (st : CycState),
    (∀ r ∈ runs, ∀ j ∈ r.jobs, j.run_id = r.id) →
    exactCount R st.servers ≤ C →
    exactCount R (stateOf (processRuns cfg runs st)).servers ≤ C := by
  intro runs
  induction runs with
  | nil => intro st _ hinv; exact hinv
  | cons r rs ih =>
    intro st hcoh hinv
    rw [processRuns]
    by_cases hcap : runCapReached cfg r.id st.servers = true
    · rw [if_pos hcap]
      exact ih st (fun x hx => hcoh x (List.mem_cons_of_mem _ hx)) hinv
    · rw [if_neg hcap]
      have hjobs := processJobs_exactCount hsh hmaxr r.jobs st
        (hcoh r (List.mem_cons_self _ _)) hinv
      rcases hpj : processJobs cfg r.id r.jobs st with st' | st'
      · rw [hpj] at hjobs
        exact ih st' (fun x hx => hcoh x (List.mem_cons_of_mem _ hx)) hjobs
      · rw [hpj] at hjobs
        exact hjobs

theorem replenishIter_exactCount {cfg : Config} {R : Nat} {C : Nat}
    {labels : List (List Char)} (hsh : ∀ l, (cfg.shuffle l).Perm l) :
    ∀ (k : Nat) (st : CycState), exactCount R st.servers ≤ C →
    exactCount R (replenishIter cfg labels k st).servers ≤ C := by
  intro k
  induction k with
  | zero => intro st hinv; exact hinv
  | succ k ih =>
    intro st hinv
    rw [replenishIter]
    rcases hc : create_runner_server cfg (standbyName (cfg.uidf st.uidCtr)) labels
        st.servers with he | ⟨srv2, sub2, d2⟩
    · exact hinv
    · have hcnt := crs_exactCount hsh hc R
      have hnp : (exactScope R).isPrefixOf (standbyName (cfg.uidf st.uidCtr)) = false := by
        rw [Bool.eq_false_iff]
        intro hx
        exact not_exactScope_standbyName R _ (isPrefB_iff.mp hx)
      rw [hnp] at hcnt
      simp at hcnt
      refine ih _ ?_
      rw [applyCrs]
      simp only
      omega

theorem processStandby_exactCount {cfg : Config} {R C : Nat}
    (hsh : ∀ l, (cfg.shuffle l).Perm l) :
    ∀ (specs : List StandbyRunner) (st : CycState), exactCount R st.servers ≤ C →
    exactCount R (finalState (processStandby cfg specs st)).servers ≤ C := by
  intro specs
  induction specs with
  | nil => intro st hinv; exact hinv
  | cons spec rest ih =>
    intro st hinv
    rw [processStandby]
    by_cases hri : spec.replenish_immediately = true
    · rw [if_pos hri]
      refine ih _ ?_
      rw [standbySpecStep]
      by_cases hav : count_available st.servers spec.labels < spec.count
      · rw [if_pos hav]
        exact replenishIter_exactCount hsh _ st hinv
      · rw [if_neg hav]
        exact hinv
    · rw [if_neg hri]
      exact hinv

theorem processJob_jobsInv {cfg : Config} {runId : Nat} {names0 : List (List Char)}
    {st : CycState} {job : Job} (hsh : ∀ l, (cfg.shuffle l).Perm l)
    (hinv : JobsInv names0 st) :
    JobsInv names0 (jobStepState (processJob cfg runId st job)) := by
  rw [processJob]
  split
  · exact hinv
  · split
    · exact hinv
    · rename_i hnpres
      split
      · exact hinv
      · rename_i labels hlab
        split
        · exact hinv
        · split
          · exact hinv
          · split
            · rename_i r hok
              rw [jobStepState]
              rcases r with ⟨srv2, sub2, d2⟩
              obtain ⟨hsub2, hmem2⟩ := crs_name_added hsh hok
              obtain ⟨hnodup, hpres, hnrec, hnot0, hmono⟩ := hinv
              have hnotrec : ¬ recyclePref <+: subName sub2 := by
                rw [hsub2]
                exact not_recycle_jobName _ _
              have hnew : subName sub2 ∉ st.subs.map subName := by
                intro hx
                obtain ⟨sb, hsb, hsn⟩ := List.mem_map.mp hx
                have := hpres sb hsb
                rw [hsn, hsub2] at this
                exact hnpres this
              constructor
              · rw [applyCrs]
                simp only [List.map_append, List.map_cons, List.map_nil]
                rw [List.nodup_append]
                refine ⟨hnodup, List.nodup_singleton _, ?_⟩
                intro x hx hx2
                rcases List.mem_singleton.mp hx2 with rfl
                exact hnew hx
              constructor
              · intro sb hsb
                rw [applyCrs] at hsb ⊢
                simp only [List.mem_append, List.mem_singleton] at hsb
                simp only
                rcases hsb with hsb | rfl
                · exact crs_name_mono hsh hok (hpres sb hsb) (hnrec sb hsb)
                · rw [hsub2]
                  exact hmem2
              constructor
              · intro sb hsb
                rw [applyCrs] at hsb
                simp only [List.mem_append, List.mem_singleton] at hsb
                rcases hsb with hsb | rfl
                · exact hnrec sb hsb
                · exact hnotrec
              constructor
              · intro sb hsb
                rw [applyCrs] at hsb
                simp only [List.mem_append, List.mem_singleton] at hsb
                rcases hsb with hsb | rfl
                · exact hnot0 sb hsb
                · intro hx
                  have hthere := hmono _ hnotrec hx
                  rw [hsub2] at hthere
                  exact hnpres hthere
              · intro nm hnr h0
                rw [applyCrs]
                simp only
                exact crs_name_mono hsh hok (hmono nm hnr h0) hnr
            · exact hinv

theorem processJobs_jobsInv {cfg : Config} {runId : Nat} {names0 : List (List Char)}
    (hsh : ∀ l, (cfg.shuffle l).Perm l) :
    ∀ (jobs : List Job) (st : CycState), JobsInv names0 st →
    JobsInv names0 (stateOf (processJobs cfg runId jobs st)) := by
  intro jobs
  induction jobs with
  | nil => intro st hinv; exact hinv
  | cons j js ih =>
    intro st hinv
    rw [processJobs]
    have hstep := @processJob_jobsInv cfg runId names0 st j hsh hinv
    rcases hpj : processJob cfg runId st j with st' | st' | st'
    · rw [hpj] at hstep
      exact ih st' hstep
    · rw [hpj] at hstep
      exact hstep
    · rw [hpj] at hstep
      exact hstep

theorem processRuns_jobsInv {cfg : Config} {names0 : List (List Char)}
    (hsh : ∀ l, (cfg.shuffle l).Perm l) :
    ∀ (runs : List Run) (st : CycState), JobsInv names0 st →
    JobsInv names0 (stateOf (processRuns cfg runs st)) := by
  intro runs
  induction runs with
  | nil => intro st hinv; exact hinv
  | cons r rs ih =>
    intro st hinv
    rw [processRuns]
    by_cases hcap : runCapReached cfg r.id st.servers = true
    · rw [if_pos hcap]
      exact ih st hinv
    · rw [if_neg hcap]
      have hjobs := @processJobs_jobsInv cfg r.id names0 hsh r.jobs st hinv
      rcases hpj : processJobs cfg r.id r.jobs st with st' | st'
      · rw [hpj] at hjobs
        exact ih st' hjobs
      · rw [hpj] at hjobs
        exact hjobs

theorem contains_iff_memS {l : List (List Char)} {a : List Char} :
    l.contains a = true ↔ a ∈ l := by
  simp

theorem count_available_spec :
    ∀ (servers : List RunnerServer) (labels : List (List Char)),
    count_available servers labels = availableSpecCount servers labels := by
  have hgen : ∀ (labels : List (List Char)) (l : List RunnerServer) (c : Nat),
      l.foldl
        (fun count rs =>
          if rs.server_status = statusOff then count
          else if labels.all (fun lb => rs.labels.contains lb) then
            if rs.status = stInitializing ∨ rs.status = stReady then count + 1 else count
          else count)
        c = c + availableSpecCount l labels := by
    intro labels l
    induction l with
    | nil => intro c; simp [availableSpecCount]
    | cons s t ih =>
      intro c
      rw [List.foldl_cons, ih]
      simp only [availableSpecCount, List.countP_cons]
      by_cases h1 : s.server_status = statusOff
      · rw [if_pos h1]
        have hd : decide (¬ s.server_status = statusOff ∧
            (∀ l ∈ labels, l ∈ s.labels) ∧
            (s.status = stInitializing ∨ s.status = stReady)) = false := by
          simp only [decide_eq_false_iff_not]
          intro hx
          exact hx.1 h1
        rw [hd]
        simp
      · by_cases h2 : labels.all (fun lb => s.labels.contains lb) = true
        · have h2' : ∀ lb ∈ labels, lb ∈ s.labels := fun lb hlb =>
            contains_iff_memS.mp (List.all_eq_true.mp h2 lb hlb)
          by_cases h3 : s.status = stInitializing ∨ s.status = stReady
          · rw [if_neg h1, if_pos h2, if_pos h3]
            have hd : decide (¬ s.server_status = statusOff ∧
                (∀ l ∈ labels, l ∈ s.labels) ∧
                (s.status = stInitializing ∨ s.status = stReady)) = true := by
              simp only [decide_eq_true_eq]
              exact ⟨h1, h2', h3⟩
            rw [hd]
            simp
            omega
          · rw [if_neg h1, if_pos h2, if_neg h3]
            have hd : decide (¬ s.server_status = statusOff ∧
                (∀ l ∈ labels, l ∈ s.labels) ∧
                (s.status = stInitializing ∨ s.status = stReady)) = false := by
              simp only [decide_eq_false_iff_not]
              intro hx
              exact h3 hx.2.2
            rw [hd]
            simp
        · rw [if_neg h1, if_neg h2]
          have hd : decide (¬ s.server_status = statusOff ∧
              (∀ l ∈ labels, l ∈ s.labels) ∧
              (s.status = stInitializing ∨ s.status = stReady)) = false := by
            simp only [decide_eq_false_iff_not]
            intro hx
            exact h2 (List.all_eq_true.mpr
              (fun lb hlb => contains_iff_memS.mpr (hx.2.1 lb hlb)))
          rw [hd]
          simp
  intro servers labels
  rw [count_available]
  simpa using hgen labels servers 0

theorem count_present_spec :
    ∀ (servers : List RunnerServer) (labels : List (List Char)),
    count_present servers labels = presentSpecCount servers labels := by
  have hgen : ∀ (labels : List (List Char)) (l : List RunnerServer) (c : Nat),
      l.foldl
        (fun count rs =>
          if rs.server_status = statusOff then count
          else if labels.all (fun lb => rs.labels.contains lb) then count + 1
          else count)
        c = c + presentSpecCount l labels := by
    intro labels l
    induction l with
    | nil => intro c; simp [presentSpecCount]
    | cons s t ih =>
      intro c
      rw [List.foldl_cons, ih]
      simp only [presentSpecCount, List.countP_cons]
      by_cases h1 : s.server_status = statusOff
      · rw [if_pos h1]
        have hd : decide (¬ s.server_status = statusOff ∧
            (∀ l ∈ labels, l ∈ s.labels)) = false := by
          simp only [decide_eq_false_iff_not]
          intro hx
          exact hx.1 h1
        rw [hd]
        simp
      · by_cases h2 : labels.all (fun lb => s.labels.contains lb) = true
        · have h2' : ∀ lb ∈ labels, lb ∈ s.labels := fun lb hlb =>
            contains_iff_memS.mp (List.all_eq_true.mp h2 lb hlb)
          rw [if_neg h1, if_pos h2]
          have hd : decide (¬ s.server_status = statusOff ∧
              (∀ l ∈ labels, l ∈ s.labels)) = true := by
            simp only [decide_eq_true_eq]
            exact ⟨h1, h2'⟩
          rw [hd]
          simp
          omega
        · rw [if_neg h1, if_neg h2]
          have hd : decide (¬ s.server_status = statusOff ∧
              (∀ l ∈ labels, l ∈ s.labels)) = false := by
            simp only [decide_eq_false_iff_not]
            intro hx
            exact h2 (List.all_eq_true.mpr
              (fun lb hlb => contains_iff_memS.mpr (hx.2 lb hlb)))
          rw [hd]
          simp
  intro servers labels
  rw [count_present]
  simpa using hgen labels servers 0

theorem replenishIter_subs {cfg : Config} {labels : List (List Char)}
    (hsh : ∀ l, (cfg.shuffle l).Perm l) (hmax : cfg.max_servers = none) :
    ∀ (k : Nat) (st : CycState),
    (replenishIter cfg labels k st).subs.length = st.subs.length + k ∧
    ∀ sb ∈ (replenishIter cfg labels k st).subs,
      sb ∈ st.subs ∨ standbyPref <+: subName sb := by
  intro k
  induction k with
  | zero => intro st; exact ⟨rfl, fun sb hsb => Or.inl hsb⟩
  | succ k ih =>
    intro st
    rw [replenishIter]
    obtain ⟨r, hr⟩ := @crs_ok_of_max_none cfg (standbyName (cfg.uidf st.uidCtr))
      labels st.servers hmax
    rw [hr]
    rcases r with ⟨srv2, sub2, d2⟩
    obtain ⟨hsub2, -⟩ := crs_name_added hsh hr
    have hstandby : standbyPref <+: subName sub2 := by
      rw [hsub2, standbyName]
      exact List.prefix_append _ _
    obtain ⟨ihlen, ihmem⟩ := ih { applyCrs st (srv2, sub2, d2) with uidCtr := st.uidCtr + 1 }
    constructor
    · rw [ihlen]
      rw [applyCrs]
      simp only [List.length_append, List.length_cons, List.length_nil]
      omega
    · intro sb hsb
      rcases ihmem sb hsb with hmem | hpre
      · rw [applyCrs] at hmem
        simp only [List.mem_append, List.mem_singleton] at hmem
        rcases hmem with hmem | rfl
        · exact Or.inl hmem
        · exact Or.inr hstandby
      · exact Or.inr hpre

theorem standbySpecStep_subs {cfg : Config} {st : CycState} {spec : StandbyRunner}
    (hsh : ∀ l, (cfg.shuffle l).Perm l) (hmax : cfg.max_servers = none) :
    (standbySpecStep cfg st spec).subs.length =
      st.subs.length + (spec.count - count_available st.servers spec.labels) ∧
    ∀ sb ∈ (standbySpecStep cfg st spec).subs,
      sb ∈ st.subs ∨ standbyPref <+: subName sb := by
  rw [standbySpecStep]
  by_cases hav : count_available st.servers spec.labels < spec.count
  · rw [if_pos hav]
    exact replenishIter_subs hsh hmax _ st
  · rw [if_neg hav]
    have : spec.count - count_available st.servers spec.labels = 0 :=
      Nat.sub_eq_zero_of_le (Nat.le_of_not_lt hav)
    rw [this]
    exact ⟨rfl, fun sb hsb => Or.inl hsb⟩

theorem processRuns_stop_append {cfg : Config} :
    ∀ (runs1 runs2 : List Run) (st st' : CycState),
    processRuns cfg runs1 st = .stop st' →
    processRuns cfg (runs1 ++ runs2) st = .stop st' := by
  intro runs1
  induction runs1 with
  | nil =>
    intro runs2 st st' h
    exact absurd h (by rw [processRuns]; simp)
  | cons r rs ih =>
    intro runs2 st st' h
    rw [processRuns] at h
    rw [List.cons_append, processRuns]
    by_cases hcap : runCapReached cfg r.id st.servers = true
    · rw [if_pos hcap] at h ⊢
      exact ih runs2 st st' h
    · rw [if_neg hcap] at h ⊢
      rcases hpj : processJobs cfg r.id r.jobs st with st'' | st''
      · rw [hpj] at h
        exact ih runs2 st'' st' h
      · rw [hpj] at h
        exact h

theorem replenishIter_break {cfg : Config} {labels : List (List Char)} {k : Nat}
    {st : CycState}
    (herr : create_runner_server cfg (standbyName (cfg.uidf st.uidCtr)) labels
      st.servers = .error ()) :
    replenishIter cfg labels (k + 1) st = st := by
  rw [replenishIter, herr]

theorem processStandby_cons_true {cfg : Config} {spec : StandbyRunner}
    {rest : List StandbyRunner} {st : CycState}
    (h : spec.replenish_immediately = true) :
    processStandby cfg (spec :: rest) st =
      processStandby cfg rest (standbySpecStep cfg st spec) := by
  rw [processStandby, if_pos h]

theorem processStandby_cons_false {cfg : Config} {spec : StandbyRunner}
    {rest : List StandbyRunner} {st : CycState}
    (h : spec.replenish_immediately = false) :
    processStandby cfg (spec :: rest) st = .error st := by
  rw [processStandby, if_neg (by rw [h]; exact Bool.false_ne_true)]

/-- In the eviction scenario (no recycle match, maximum reached, a recyclable
chosen), the routine deletes the chosen recyclable and submits a create for
the requested name. -/
theorem crs_evict {cfg : Config} {nm : List Char} {labels : List (List Char)}
    {servers : List RunnerServer} {chosen : RunnerServer} {m : Nat}
    (hsh : ∀ l, (cfg.shuffle l).Perm l)
    (hscan : recycleScanResult cfg labels servers = none)
    (hmax : cfg.max_servers = some m) (hlen : m ≤ servers.length)
    (hch : evictionChoice cfg (recyclablesConsidered cfg servers) = some chosen) :
    create_runner_server cfg nm labels servers =
      .ok (servers.erase chosen ++ [placeholderServer nm labels
          (get_server_type labels cfg.default_server_type)
          (get_server_location labels cfg.default_location)],
        .create nm labels (get_server_type labels cfg.default_server_type)
          (get_server_location labels cfg.default_location),
        some chosen.name) := by
  rw [create_runner_server, hscan, hmax]
  rcases hrec : recyclablesConsidered cfg servers with _ | ⟨rhd, rtl⟩
  · exfalso
    rw [hrec] at hch
    have h0 : evictionOrder cfg [] = [] := (evictionOrder_perm cfg hsh []).eq_nil
    rw [evictionChoice, h0] at hch
    exact Option.noConfusion hch
  · rw [hrec] at hch
    simp only [hrec, hch, ge_iff_le, hlen, if_true]

theorem keyLe_none_eq {b : Option ℚ} (h : keyLe none b = true) : b = none := by
  cases b with
  | none => rfl
  | some q => exact absurd h (by simp [keyLe])

/-- With a price table configured, the evicted server carries a minimal key
(unknown prices acting as plus infinity). -/
theorem evictionChoice_price_min {cfg : Config} {tbl : List (List Char × ℚ)}
    (hprices : cfg.server_prices = some tbl) {l : List RunnerServer}
    {e : RunnerServer} (hch : evictionChoice cfg l = some e) :
    e ∈ l ∧ ∀ r ∈ l, keyLe (sorting_key tbl e) (sorting_key tbl r) = true := by
  rw [evictionChoice, evictionOrder, hprices] at hch
  have hperm := sortDesc_perm (sorting_key tbl) l
  have hmem : e ∈ l := hperm.mem_iff.mp (mem_of_getLastEq hch)
  refine ⟨hmem, ?_⟩
  intro r hr
  exact getLast_min_of_descOrdered (sortDesc_descOrdered _ l) hch r (hperm.mem_iff.mpr hr)

theorem typeFold_nomatch :
    ∀ (ys : List (List Char)) (acc : Option ServerType),
    (∀ y ∈ ys, (chars "type-").isPrefixOf y = false) →
    ys.foldl
      (fun acc label =>
        if (chars "type-").isPrefixOf label then
          some (ServerType.mk ((label.drop (chars "type-").length).map Char.toLower))
        else acc)
      acc = acc := by
  intro ys
  induction ys with
  | nil => intro acc _; rfl
  | cons y t ih =>
    intro acc h
    rw [List.foldl_cons]
    rw [h y (List.mem_cons_self _ _)]
    simp only [Bool.false_eq_true, if_false]
    exact ih acc (fun z hz => h z (List.mem_cons_of_mem _ hz))

/-- The label reached last in iteration order decides the server type: the
loop in `get_server_type` has no `break` and overwrites on every match. -/
theorem get_server_type_last {xs : List (List Char)} {lab : List Char}
    {ys : List (List Char)} {d : ServerType}
    (hlab : (chars "type-").isPrefixOf lab = true)
    (hys : ∀ y ∈ ys, (chars "type-").isPrefixOf y = false) :
    get_server_type (xs ++ lab :: ys) d =
      ServerType.mk ((lab.drop (chars "type-").length).map Char.toLower) := by
  rw [get_server_type, List.foldl_append, List.foldl_cons, hlab]
  simp only [if_true]
  rw [typeFold_nomatch ys _ hys]

/-- With no matching label the configured default is used. -/
theorem get_server_type_default {labels : List (List Char)} {d : ServerType}
    (h : ∀ y ∈ labels, (chars "type-").isPrefixOf y = false) :
    get_server_type labels d = d := by
  rw [get_server_type, typeFold_nomatch labels none h]

theorem inprogress_ne_completed : sInProgress ≠ sCompleted := by decide

theorem queued_ne_completed : sQueued ≠ sCompleted := by decide

theorem queued_ne_inprogress : sQueued ≠ sInProgress := by decide

/-- An in-progress job whose assigned runner is standby-named is skipped,
whatever the rest of the state: the handler returns with the state unchanged
and nothing submitted. -/
theorem processJob_standby_skip {cfg : Config} {runId : Nat} {st : CycState}
    {job : Job} (hst : job.status = sInProgress)
    (hrn : standbyPref <+: job.runner_name) :
    processJob cfg runId st job = .cont st := by
  rw [processJob]
  rw [if_neg (show ¬ job.status = sCompleted from hst ▸ inprogress_ne_completed)]
  by_cases hpres : jobServerName job.run_id job.id ∈ st.servers.map (fun s => s.name)
  · rw [if_pos hpres]
  · rw [if_neg hpres]
    have heff : effectiveLabels job = none := by
      rw [effectiveLabels, if_pos hst,
        if_pos (isPrefB_iff.mpr hrn)]
    rw [heff]

/-- An in-progress job on a non-standby runner is handled exactly like a
queued job whose declared labels are the assigned runner's registered labels. -/
theorem processJob_inprogress_relabel {cfg : Config} {runId : Nat} {st : CycState}
    {job : Job} (hst : job.status = sInProgress)
    (hrn : ¬ standbyPref <+: job.runner_name) :
    processJob cfg runId st job = processJob cfg runId st (relabeledJob job) := by
  have hb : standbyPref.isPrefixOf job.runner_name = false := by
    rw [Bool.eq_false_iff]
    intro hx
    exact hrn (isPrefB_iff.mp hx)
  have heffL : effectiveLabels job = some job.runner_labels := by
    rw [effectiveLabels, if_pos hst, hb]
    simp
  have hstQ : (relabeledJob job).status = sQueued := rfl
  have heffR : effectiveLabels (relabeledJob job) = some job.runner_labels := by
    rw [effectiveLabels, if_neg (show ¬ (relabeledJob job).status = sInProgress from
      hstQ ▸ queued_ne_inprogress)]
    rfl
  rw [processJob, processJob]
  rw [if_neg (show ¬ job.status = sCompleted from hst ▸ inprogress_ne_completed)]
  rw [if_neg (show ¬ (relabeledJob job).status = sCompleted from
    hstQ ▸ queued_ne_completed)]
  rw [heffL, heffR]
  rfl

/-- C1: at the configured maximum with unclaimed recyclable servers, the
eviction deletes the popped end of the eviction ordering; with no price table
that ordering is one uniform shuffle outcome (every recyclable is selected by
equally many permutations); with a price table the evicted server has minimal
known price, a missing price acting as plus infinity, so an unknown-price
server is deleted only when every recyclable's price is unknown. -/
theorem C1_eviction_policy
    (cfg : Config) (nm : List Char) (labels : List (List Char))
    (servers : List RunnerServer) (chosen : RunnerServer) (m : Nat)
    (hsh : ∀ l, (cfg.shuffle l).Perm l)
    (hscan : recycleScanResult cfg labels servers = none)
    (hmax : cfg.max_servers = some m) (hlen : m ≤ servers.length)
    (hpnone : cfg.server_prices = none)
    (hch : evictionChoice cfg (recyclablesConsidered cfg servers) = some chosen)
    (l : List RunnerServer) (hnd : l.Nodup) (i j : Fin l.length)
    (cfgP : Config) (nmP : List Char) (labelsP : List (List Char))
    (serversP : List RunnerServer) (chosenP r : RunnerServer) (mP : Nat)
    (tbl : List (List Char × ℚ))
    (hshP : ∀ l, (cfgP.shuffle l).Perm l)
    (hscanP : recycleScanResult cfgP labelsP serversP = none)
    (hmaxP : cfgP.max_servers = some mP) (hlenP : mP ≤ serversP.length)
    (hpP : cfgP.server_prices = some tbl)
    (hchP : evictionChoice cfgP (recyclablesConsidered cfgP serversP) = some chosenP)
    (hr : r ∈ recyclablesConsidered cfgP serversP) :
    create_runner_server cfg nm labels servers =
      .ok (servers.erase chosen ++ [placeholderServer nm labels
          (get_server_type labels cfg.default_server_type)
          (get_server_location labels cfg.default_location)],
        .create nm labels (get_server_type labels cfg.default_server_type)
          (get_server_location labels cfg.default_location),
        some chosen.name) ∧
    chosen ∈ recyclablesConsidered cfg servers ∧
    evictionChoice cfg (recyclablesConsidered cfg servers) =
      (cfg.shuffle (recyclablesConsidered cfg servers)).getLast? ∧
    (Finset.univ.filter (fun σ : Equiv.Perm (Fin l.length) =>
        (applyPerm l σ).getLast? = some (l.get i))).card =
      (Finset.univ.filter (fun σ : Equiv.Perm (Fin l.length) =>
        (applyPerm l σ).getLast? = some (l.get j))).card ∧
    create_runner_server cfgP nmP labelsP serversP =
      .ok (serversP.erase chosenP ++ [placeholderServer nmP labelsP
          (get_server_type labelsP cfgP.default_server_type)
          (get_server_location labelsP cfgP.default_location)],
        .create nmP labelsP (get_server_type labelsP cfgP.default_server_type)
          (get_server_location labelsP cfgP.default_location),
        some chosenP.name) ∧
    keyLe (sorting_key tbl chosenP) (sorting_key tbl r) = true ∧
    (sorting_key tbl chosenP = none → sorting_key tbl r = none) := by
  obtain ⟨-, hmin⟩ := evictionChoice_price_min hpP hchP
  refine ⟨crs_evict hsh hscan hmax hlen hch, evictionChoice_mem hsh hch, ?_,
    applyPerm_pick_uniform hnd i j,
    crs_evict hshP hscanP hmaxP hlenP hchP, hmin r hr, ?_⟩
  · rw [evictionChoice, evictionOrder, hpnone]
  · intro hnone
    have := hmin r hr
    rw [hnone] at this
    exact keyLe_none_eq this

/-- C2: the target name is the fleet marker, run id, hyphen, job id; a job
whose name is already in the snapshot is never submitted; every successful
submission immediately registers a placeholder under its name, and the names
submitted during the queued-runs phase are pairwise distinct. -/
theorem C2_idempotent_naming (cfg : Config) (runs : List Run)
    (servers0 : List RunnerServer) (rid jid : Nat)
    (hsh : ∀ l, (cfg.shuffle l).Perm l)
    (hnm : jobServerName rid jid ∈ servers0.map (fun s => s.name))
    (cfg2 : Config) (nm2 : List Char) (labels2 : List (List Char))
    (servers2 srv2 : List RunnerServer) (sub2 : Submission) (d2 : Option (List Char))
    (hsh2 : ∀ l, (cfg2.shuffle l).Perm l)
    (hok2 : create_runner_server cfg2 nm2 labels2 servers2 = .ok (srv2, sub2, d2)) :
    jobServerName rid jid = snPref ++ natChars rid ++ '-' :: natChars jid ∧
    ((stateOf (processRuns cfg runs (initState servers0))).subs.map subName).Nodup ∧
    jobServerName rid jid ∉
      (stateOf (processRuns cfg runs (initState servers0))).subs.map subName ∧
    subName sub2 = nm2 ∧ nm2 ∈ srv2.map (fun s => s.name) := by
  have hinv0 : JobsInv (servers0.map (fun s => s.name)) (initState servers0) := by
    refine ⟨List.nodup_nil, ?_, ?_, ?_, ?_⟩
    · intro sb hsb; exact absurd hsb (List.not_mem_nil sb)
    · intro sb hsb; exact absurd hsb (List.not_mem_nil sb)
    · intro sb hsb; exact absurd hsb (List.not_mem_nil sb)
    · intro nm _ h0; exact h0
  obtain ⟨hnd, -, -, hnot0, -⟩ :=
    processRuns_jobsInv hsh runs (initState servers0) hinv0
  obtain ⟨hsub2, hmem2⟩ := crs_name_added hsh2 hok2
  refine ⟨rfl, hnd, ?_, hsub2, hmem2⟩
  intro hx
  obtain ⟨sb, hsb, hsn⟩ := List.mem_map.mp hx
  exact hnot0 sb hsb (hsn ▸ hnm)

/-- C3: at the configured fleet-wide maximum with a recyclable server at hand
the required server is obtained by recycling in place or by deleting a
recyclable, the snapshot size stays at the maximum, and any call that starts
within the maximum ends within it. -/
theorem C3_fleet_max_invariant (cfg : Config) (nm : List Char)
    (labels : List (List Char)) (servers : List RunnerServer) (m : Nat)
    (hsh : ∀ l, (cfg.shuffle l).Perm l) (hmax : cfg.max_servers = some m)
    (hlen : servers.length = m)
    (hrec : recyclablesConsidered cfg servers ≠ [])
    (servers2 srv2 : List RunnerServer) (sub2 : Submission) (d2 : Option (List Char))
    (hlen2 : servers2.length ≤ m)
    (hok2 : create_runner_server cfg nm labels servers2 = .ok (srv2, sub2, d2)) :
    (∃ srv' sub d, create_runner_server cfg nm labels servers = .ok (srv', sub, d) ∧
      srv'.length = m ∧
      ((∃ old, sub = .recycle old nm labels ∧ d = none) ∨
        (∃ rs, rs ∈ servers ∧ recyclePref <+: rs.name ∧ d = some rs.name))) ∧
    srv2.length ≤ m :=
  ⟨crs_at_max hsh hmax hlen hrec, crs_ok_length_le hsh hmax hlen2 hok2⟩

/-- C4: with a per-run cap configured, one reconciliation cycle never pushes
the number of servers exactly scoped to a run beyond the cap, because the cap
is checked before each run and re-checked before each provisioning. -/
theorem C4_run_cap_invariant (cfg : Config) (runs : List Run) (st0 : CycState)
    (R C : Nat) (hsh : ∀ l, (cfg.shuffle l).Perm l)
    (hmaxr : cfg.max_servers_in_workflow_run = some C)
    (hcoh : ∀ r ∈ runs, ∀ j ∈ r.jobs, j.run_id = r.id)
    (hstart : exactCount R st0.servers ≤ C) :
    exactCount R (finalState (runCycle cfg runs st0)).servers ≤ C := by
  rw [runCycle]
  exact processStandby_exactCount hsh _ _
    (processRuns_exactCount hsh hmaxr runs st0 hcoh hstart)

/-- C5: the capacity-exhausted signal is raised exactly when the fleet-wide
maximum is reached with no recyclable at hand; raised during job processing it
cuts off only the remaining runs (the standby loop still runs on the state at
the raise); raised during standby replenishment it ends only that one spec's
loop, and the next specs are still processed. -/
theorem C5_capacity_signal (cfg : Config) (nm : List Char)
    (labels : List (List Char)) (servers : List RunnerServer)
    (hsh : ∀ l, (cfg.shuffle l).Perm l)
    (runs1 runs2 : List Run) (st st' : CycState)
    (hstop : processRuns cfg runs1 st = .stop st')
    (spec : StandbyRunner) (rest : List StandbyRunner) (st3 : CycState)
    (hri : spec.replenish_immediately = true)
    (labels4 : List (List Char)) (k4 : Nat) (st4 : CycState)
    (herr4 : create_runner_server cfg (standbyName (cfg.uidf st4.uidCtr)) labels4
      st4.servers = .error ()) :
    (create_runner_server cfg nm labels servers = .error () ↔
      (∃ m, cfg.max_servers = some m ∧ m ≤ servers.length) ∧
        recyclablesConsidered cfg servers = []) ∧
    processRuns cfg (runs1 ++ runs2) st = .stop st' ∧
    runCycle cfg (runs1 ++ runs2) st = processStandby cfg cfg.standby_runners st' ∧
    processStandby cfg (spec :: rest) st3 =
      processStandby cfg rest (standbySpecStep cfg st3 spec) ∧
    replenishIter cfg labels4 (k4 + 1) st4 = st4 := by
  have happ := processRuns_stop_append runs1 runs2 st st' hstop
  refine ⟨crs_error_iff hsh, happ, ?_, processStandby_cons_true hri,
    replenishIter_break herr4⟩
  rw [runCycle, happ]
  rfl

/-- C6: the deferred-replenish path is broken in the source: the call at
scale_up.py line 666 passes the snapshot under the keyword `server` while
`count_present` declares `servers`, so Python keyword binding fails and the
cycle aborts with a TypeError; the function itself, as declared, computes the
count the specification describes. -/
theorem C6_count_present_kwarg_bug (cfg : Config) (spec : StandbyRunner)
    (rest : List StandbyRunner) (st : CycState)
    (hri : spec.replenish_immediately = false)
    (servers2 : List RunnerServer) (labels2 : List (List Char)) :
    pyKwargsBindOk count_present_params count_present_call_kwargs = false ∧
    processStandby cfg (spec :: rest) st = .error st ∧
    count_present servers2 labels2 = presentSpecCount servers2 labels2 :=
  ⟨by decide, processStandby_cons_false hri, count_present_spec servers2 labels2⟩

/-- C7: for an immediate-replenish spec, `available` is the number of
non-powered-off servers whose labels cover the spec's and whose status is
initializing or ready; with no fleet maximum in the way, exactly
`count - available` submissions are made, every new one standby-namespaced. -/
theorem C7_standby_immediate (cfg : Config) (st : CycState) (spec : StandbyRunner)
    (rest : List StandbyRunner)
    (hsh : ∀ l, (cfg.shuffle l).Perm l) (hmax : cfg.max_servers = none)
    (hri : spec.replenish_immediately = true)
    (sb : Submission) (hsb : sb ∈ (standbySpecStep cfg st spec).subs) :
    count_available st.servers spec.labels = availableSpecCount st.servers spec.labels ∧
    processStandby cfg (spec :: rest) st =
      processStandby cfg rest (standbySpecStep cfg st spec) ∧
    (standbySpecStep cfg st spec).subs.length =
      st.subs.length + (spec.count - count_available st.servers spec.labels) ∧
    (sb ∈ st.subs ∨ standbyPref <+: subName sb) := by
  obtain ⟨hlen, hmem⟩ := @standbySpecStep_subs cfg st spec hsh hmax
  exact ⟨count_available_spec st.servers spec.labels, processStandby_cons_true hri,
    hlen, hmem sb hsb⟩

/-- C8: an in-progress job with no same-named server is skipped outright when
its assigned runner is standby-named; otherwise it is handled exactly as a
queued job whose declared labels are the assigned runner's registered label
set, so the required-label filter and the provisioning both use those labels. -/
theorem C8_inprogress_jobs (cfg : Config) (runId : Nat) (st : CycState)
    (job job2 : Job)
    (hst : job.status = sInProgress) (hrn : standbyPref <+: job.runner_name)
    (hst2 : job2.status = sInProgress) (hrn2 : ¬ standbyPref <+: job2.runner_name) :
    processJob cfg runId st job = .cont st ∧
    processJob cfg runId st job2 = processJob cfg runId st (relabeledJob job2) ∧
    (relabeledJob job2).labels = job2.runner_labels ∧
    (relabeledJob job2).status = sQueued :=
  ⟨processJob_standby_skip hst hrn, processJob_inprogress_relabel hst2 hrn2, rfl, rfl⟩

/-- C9 counterexample: with two `type-` labels in iteration order, the
resolved type is the one named by the last such label, not the first as the
claim states. -/
theorem C9_first_match_refuted :
    get_server_type [chars "type-a", chars "type-b"] (ServerType.mk (chars "cx31"))
        = ServerType.mk (chars "b") ∧
      get_server_type [chars "type-a", chars "type-b"] (ServerType.mk (chars "cx31"))
        ≠ ServerType.mk (chars "a") := by
  constructor
  · decide
  · decide

/-- C9 (amended): the `type-` label reached last in the set's iteration order
decides the server type (the loop overwrites on every match and has no break);
the configured default is used only when no label carries the marker. -/
theorem C9_last_type_label_wins (xs : List (List Char)) (lab : List Char)
    (ys : List (List Char)) (d : ServerType)
    (hlab : (chars "type-").isPrefixOf lab = true)
    (hys : ∀ y ∈ ys, (chars "type-").isPrefixOf y = false)
    (ls : List (List Char)) (hls : ∀ y ∈ ls, (chars "type-").isPrefixOf y = false) :
    get_server_type (xs ++ lab :: ys) d =
      ServerType.mk ((lab.drop (chars "type-").length).map Char.toLower) ∧
    get_server_type ls d = d :=
  ⟨get_server_type_last hlab hys, get_server_type_default hls⟩

/-- C10: the per-run cap check matches on the raw concatenation of the fleet
marker and the decimal run id with no separator, so when the decimal id of one
run is a proper prefix of another's, every server exactly scoped to the longer
run is also counted toward the shorter run's cap, and can trip it on its own. -/
theorem C10_run_cap_prefix_overcount (r1 r2 : Nat)
    (hpre : natChars r1 <+: natChars r2) (hne : r1 ≠ r2)
    (servers : List RunnerServer) (s : RunnerServer) (hs : s ∈ servers)
    (hscope : exactScope r2 <+: s.name) (c : Nat)
    (hcnt : c ≤ (servers.filter (fun s => (exactScope r2).isPrefixOf s.name)).length) :
    s ∈ servers.filter (fun s => (runPref r1).isPrefixOf s.name) ∧
    max_servers_in_workflow_run_reached r1 servers c = true := by
  have himp : ∀ x ∈ servers, (exactScope r2).isPrefixOf x.name = true →
      (runPref r1).isPrefixOf x.name = true := by
    intro x _ hx
    exact isPrefB_iff.mpr
      (runPref_le_of_natChars_le hpre (isPrefB_iff.mp hx))
  constructor
  · refine List.mem_filter.mpr ⟨hs, ?_⟩
    exact isPrefB_iff.mpr (runPref_le_of_natChars_le hpre hscope)
  · rw [max_reached_iff]
    calc c ≤ (servers.filter (fun s => (exactScope r2).isPrefixOf s.name)).length := hcnt
      _ = servers.countP (fun s => (exactScope r2).isPrefixOf s.name) :=
        (List.countP_eq_length_filter _ _).symm
      _ ≤ servers.countP (fun s => (runPref r1).isPrefixOf s.name) :=
        List.countP_mono_left himp

/-- Witness for C1 at concrete inputs. -/
theorem C1_eviction_policy_witness :
    evictionChoice cfgW (recyclablesConsidered cfgW [recServer1]) = some recServer1 ∧
    create_runner_server cfgW (chars "n") [] [recServer1] =
      .ok ([recServer1].erase recServer1 ++ [placeholderServer (chars "n") [] stCX none],
        .create (chars "n") [] stCX none, some recServer1.name) ∧
    keyLe (sorting_key tblW recServer2) (sorting_key tblW recServer1) = true ∧
    create_runner_server cfgP (chars "p") [] [recServer1, recServer2] =
      .ok ([recServer1, recServer2].erase recServer2 ++
          [placeholderServer (chars "p") [] stCX none],
        .create (chars "p") [] stCX none, some recServer2.name) :=
  have h := C1_eviction_policy cfgW (chars "n") [] [recServer1] recServer1 1
    (fun l => List.Perm.refl l) (by decide) rfl (by decide) rfl (by decide)
    [recServer1] (by decide) ⟨0, by decide⟩ ⟨0, by decide⟩
    cfgP (chars "p") [] [recServer1, recServer2] recServer2 recServer1 2 tblW
    (fun l => List.Perm.refl l) (by decide) rfl (by decide) rfl (by decide) (by decide)
  ⟨by decide, h.1, h.2.2.2.2.2.1, h.2.2.2.2.1⟩

/-- Witness for C2 at concrete inputs. -/
theorem C2_idempotent_naming_witness :
    jobServerName 1 2 ∈ ([jobSrv12] : List RunnerServer).map (fun s => s.name) ∧
    ((stateOf (processRuns cfgW [Run.mk 1 [jobQ]] (initState [jobSrv12]))).subs.map
      subName).Nodup ∧
    jobServerName 1 2 ∉
      (stateOf (processRuns cfgW [Run.mk 1 [jobQ]] (initState [jobSrv12]))).subs.map
        subName :=
  have h := C2_idempotent_naming cfgW [Run.mk 1 [jobQ]] [jobSrv12] 1 2
    (fun l => List.Perm.refl l) (by decide)
    cfgW (chars "n") [] [] [placeholderServer (chars "n") [] stCX none]
    (.create (chars "n") [] stCX none) none
    (fun l => List.Perm.refl l) rfl
  ⟨by decide, h.2.1, h.2.2.1⟩

/-- Witness for C3 at concrete inputs. -/
theorem C3_fleet_max_invariant_witness :
    ([recServer1] : List RunnerServer).length = 1 ∧
    recyclablesConsidered cfgW [recServer1] ≠ [] ∧
    (∃ srv' sub d,
      create_runner_server cfgW (chars "n") [] [recServer1] = .ok (srv', sub, d) ∧
      srv'.length = 1 ∧
      ((∃ old, sub = .recycle old (chars "n") [] ∧ d = none) ∨
        (∃ rs, rs ∈ ([recServer1] : List RunnerServer) ∧ recyclePref <+: rs.name ∧
          d = some rs.name))) :=
  have h := C3_fleet_max_invariant cfgW (chars "n") [] [recServer1] 1
    (fun l => List.Perm.refl l) rfl (by decide) (by decide)
    [] [placeholderServer (chars "n") [] stCX none]
    (.create (chars "n") [] stCX none) none (by decide) rfl
  ⟨by decide, by decide, h.1⟩

/-- Witness for C4 at concrete inputs. -/
theorem C4_run_cap_invariant_witness :
    exactCount 1 (initState []).servers ≤ 1 ∧
    exactCount 1
      (finalState (runCycle cfgW [Run.mk 1 [jobQ]] (initState []))).servers ≤ 1 :=
  ⟨by decide, C4_run_cap_invariant cfgW [Run.mk 1 [jobQ]] (initState []) 1 1
    (fun l => List.Perm.refl l) rfl (by decide) (by decide)⟩

/-- Witness for C5 at concrete inputs. -/
theorem C5_capacity_signal_witness :
    processRuns cfg5 [Run.mk 1 [jobQ]] (initState []) = .stop (initState []) ∧
    (create_runner_server cfg5 (chars "n") [] [] = .error () ↔
      (∃ m, cfg5.max_servers = some m ∧ m ≤ ([] : List RunnerServer).length) ∧
        recyclablesConsidered cfg5 [] = []) ∧
    runCycle cfg5 ([Run.mk 1 [jobQ]] ++ []) (initState []) =
      processStandby cfg5 cfg5.standby_runners (initState []) ∧
    replenishIter cfg5 [] (0 + 1) (initState []) = initState [] :=
  have h := C5_capacity_signal cfg5 (chars "n") [] []
    (fun l => List.Perm.refl l) [Run.mk 1 [jobQ]] [] (initState []) (initState [])
    (by decide) spec5 [] (initState []) rfl [] 0 (initState []) rfl
  ⟨by decide, h.1, h.2.2.1, h.2.2.2.2⟩

/-- Witness for C6 at concrete inputs. -/
theorem C6_count_present_kwarg_bug_witness :
    spec6.replenish_immediately = false ∧
    pyKwargsBindOk count_present_params count_present_call_kwargs = false ∧
    processStandby cfgW [spec6] (initState []) = .error (initState []) ∧
    count_present [] [] = presentSpecCount [] [] :=
  have h := C6_count_present_kwarg_bug cfgW spec6 [] (initState []) rfl [] []
  ⟨rfl, h.1, h.2.1, h.2.2⟩

/-- Witness for C7 at concrete inputs. -/
theorem C7_standby_immediate_witness :
    Submission.create (standbyName (chars "u")) [] stCX none
      ∈ (standbySpecStep cfg7 (initState []) spec7).subs ∧
    count_available (initState []).servers spec7.labels =
      availableSpecCount (initState []).servers spec7.labels ∧
    (standbySpecStep cfg7 (initState []) spec7).subs.length =
      (initState []).subs.length +
        (spec7.count - count_available (initState []).servers spec7.labels) :=
  have h := C7_standby_immediate cfg7 (initState []) spec7 []
    (fun l => List.Perm.refl l) rfl rfl
    (Submission.create (standbyName (chars "u")) [] stCX none) (by decide)
  ⟨by decide, h.1, h.2.2.1⟩

/-- Witness for C8 at concrete inputs. -/
theorem C8_inprogress_jobs_witness :
    processJob cfgW 1 (initState []) jobSB = .cont (initState []) ∧
    processJob cfgW 1 (initState []) jobIP =
      processJob cfgW 1 (initState []) (relabeledJob jobIP) ∧
    (relabeledJob jobIP).labels = [chars "large", chars "gpu"] :=
  have h := C8_inprogress_jobs cfgW 1 (initState []) jobSB jobIP
    rfl (by decide) rfl (by decide)
  ⟨h.1, h.2.1, h.2.2.1⟩

/-- Witness for C9 (amended) at concrete inputs. -/
theorem C9_last_type_label_wins_witness :
    get_server_type [chars "type-a", chars "type-b"] stCX =
      ServerType.mk (((chars "type-b").drop (chars "type-").length).map Char.toLower) ∧
    get_server_type [chars "small"] stCX = stCX :=
  have h := C9_last_type_label_wins [chars "type-a"] (chars "type-b") [] stCX
    (by decide) (by decide) [chars "small"] (by decide)
  ⟨h.1, h.2⟩

/-- Witness for C10 at concrete inputs. -/
theorem C10_run_cap_prefix_overcount_witness :
    natChars 1 <+: natChars 12 ∧
    runSrv127 ∈ ([runSrv127] : List RunnerServer).filter
      (fun s => (runPref 1).isPrefixOf s.name) ∧
    max_servers_in_workflow_run_reached 1 [runSrv127] 1 = true :=
  have h := C10_run_cap_prefix_overcount 1 12 (by decide) (by decide)
    [runSrv127] runSrv127 (by decide) (by decide) 1 (by decide)
  ⟨by decide, h.1, h.2⟩
